import Mathlib

/-!
Shallow embedding of the case-conversion utilities of this repository
(basic_prompt.js, few_shot_prompt.js, refined_prompt.js and the kebab-case
module).  Strings are modelled as `List Char`; the JavaScript regular
expression replacements are modelled as explicit character scans; dynamic
values are modelled by `JSVal`, and a function that throws is modelled by
`Except String String`.
-/

/-- A JavaScript runtime value, restricted to the shapes the spec mentions. -/
inductive JSVal where
  | str (s : String)
  | num (n : Int)
  | bool (b : Bool)
  | null
  | undef
  | obj
  | arr
deriving DecidableEq

/-- Whether the runtime type of a value is string (JavaScript `typeof v === "string"`). -/
def JSVal.isString : JSVal → Bool
  | JSVal.str _ => true
  | _ => false

/-- JavaScript `String(v)` coercion for the modelled value shapes. -/
def jsToString : JSVal → String
  | JSVal.str s => s
  | JSVal.num n => toString n
  | JSVal.bool true => "true"
  | JSVal.bool false => "false"
  | JSVal.null => "null"
  | JSVal.undef => "undefined"
  | JSVal.obj => "[object Object]"
  | JSVal.arr => ""

/-- The delimiter class `[_\s]` of the kebab-case module. -/
def isKebabDelim (c : Char) : Bool := c = '_' || c.isWhitespace

/-- The delimiter class `[_\-\s]` of the refined `toCamelCase`. -/
def isCamelDelim (c : Char) : Bool := c = '_' || c = '-' || c.isWhitespace

/-- The delimiter class `[._\-\s]` of the refined `toDotCase`. -/
def isDotDelim (c : Char) : Bool := c = '.' || c = '_' || c = '-' || c.isWhitespace

/-- Remove the maximal trailing run of characters satisfying `p`
(models stripping a `p+$` suffix). -/
def dropTrailingRun (p : Char → Bool) : List Char → List Char
  | [] => []
  | c :: cs =>
    let r := dropTrailingRun p cs
    if r = [] then (if p c then [] else [c]) else c :: r

/-- JavaScript `String.prototype.trim` on character lists. -/
def jsTrim (l : List Char) : List Char :=
  dropTrailingRun Char.isWhitespace (l.dropWhile Char.isWhitespace)

/-- Model of the global replacement `([A-Z]+)([A-Z][a-z]) -> $1<sep>$2`:
insert `sep` before every uppercase letter that is preceded by an uppercase
letter and followed by a lowercase letter (the acronym-to-word boundary).
`prev` is the character preceding the current position in the original
string, if any. -/
def acronymSplit (sep : Char) : Option Char → List Char → List Char
  | _, [] => []
  | prev, c :: cs =>
    let b := match prev, cs with
      | some p, n :: _ => p.isUpper && c.isUpper && n.isLower
      | _, _ => false
    if b then sep :: c :: acronymSplit sep (some c) cs
    else c :: acronymSplit sep (some c) cs

/-- Model of the global replacement `([a-z0-9])([A-Z]) -> $1<sep>$2`:
insert `sep` before every uppercase letter that is preceded by a lowercase
letter or a digit. -/
def camelSplit (sep : Char) : Option Char → List Char → List Char
  | _, [] => []
  | prev, c :: cs =>
    let b := match prev with
      | some p => (p.isLower || p.isDigit) && c.isUpper
      | none => false
    if b then sep :: c :: camelSplit sep (some c) cs
    else c :: camelSplit sep (some c) cs

/-- Model of the global replacement of every maximal run of characters
satisfying `p` by the single character `r` (e.g. `[_\s]+ -> '-'`).
The flag records whether the previous character was part of a run. -/
def collapseRuns (p : Char → Bool) (r : Char) : Bool → List Char → List Char
  | _, [] => []
  | inRun, c :: cs =>
    if p c then
      if inRun then collapseRuns p r true cs
      else r :: collapseRuns p r true cs
    else c :: collapseRuns p r false cs

/-- Remove one leading occurrence of `sep` (models the `^-` half of
`/^-|-$/g`). -/
def dropOneLeading (sep : Char) : List Char → List Char
  | [] => []
  | c :: cs => if c = sep then cs else c :: cs

/-- Remove one trailing occurrence of `sep` (models the `-$` half of
`/^-|-$/g`). -/
def dropOneTrailing (sep : Char) : List Char → List Char
  | [] => []
  | [c] => if c = sep then [] else [c]
  | c :: c2 :: cs => c :: dropOneTrailing sep (c2 :: cs)

/-- JavaScript `str.split(/p+/)` where `p` is a character class: the segments
between maximal delimiter runs, with an empty segment for a leading or a
trailing delimiter run. -/
def splitRuns (p : Char → Bool) : List Char → List (List Char)
  | [] => [[]]
  | c :: cs =>
    let r := splitRuns p cs
    if p c then
      match cs with
      | c2 :: _ => if p c2 then r else [] :: r
      | [] => [] :: r
    else
      match r with
      | w :: ws => (c :: w) :: ws
      | [] => [[c]]

/-- JavaScript `parts.join(sep)` for a one-character separator. -/
def joinSep (sep : Char) : List (List Char) → List Char
  | [] => []
  | [w] => w
  | w :: ws => w ++ sep :: joinSep sep ws

/-- Capitalisation of an (already lowercased) part:
`p.charAt(0).toUpperCase() + p.slice(1)`. -/
def capitalizeWord : List Char → List Char
  | [] => []
  | c :: cs => Char.toUpper c :: cs

/-- Lowering of the first character only:
`str.charAt(0).toLowerCase() + str.slice(1)`. -/
def lowerFirst : List Char → List Char
  | [] => []
  | c :: cs => Char.toLower c :: cs

/-- Whether a list contains no two adjacent characters both satisfying `p`. -/
def noRunOf (p : Char → Bool) : List Char → Bool
  | [] => true
  | [_] => true
  | a :: b :: rest => (!(p a && p b)) && noRunOf p (b :: rest)

/-- The camel-boundary pair test used by `camelSplit`: previous character is
a lowercase letter or digit and the current one is uppercase. -/
def camelBoundaryB (p c : Char) : Bool := (p.isLower || p.isDigit) && c.isUpper

/-- No adjacent pair of `l` (including `prev` paired with the head)
satisfies the two-character test `f`. -/
def pairOk (f : Char → Char → Bool) : Option Char → List Char → Bool
  | _, [] => true
  | none, c :: cs => pairOk f (some c) cs
  | some p, c :: cs => !f p c && pairOk f (some c) cs

/-- The test `^[A-Z][a-zA-Z0-9]*$` of the refined `toCamelCase`. -/
def pascalTest : List Char → Bool
  | [] => false
  | c :: cs => c.isUpper && cs.all (fun x => x.isAlpha || x.isDigit)

/-- The test `^[a-z][a-zA-Z0-9]*$ && [A-Z]` of the refined `toCamelCase`. -/
def camelTest (l : List Char) : Bool :=
  (match l with
   | [] => false
   | c :: cs => c.isLower && cs.all (fun x => x.isAlpha || x.isDigit)) && l.any Char.isUpper

namespace Kebab

/-- Core of `toKebabCase` (the unnamed kebab-case module): the chain of
regex replacements from the source, in order: acronym boundary, camel
boundary, `[_\s]+ -> '-'`, `toLowerCase`, `-+ -> '-'`, `^-|-$ -> ''`. -/
def toKebabStr (l : List Char) : List Char :=
  if l = [] then []
  else
    dropOneTrailing '-' (dropOneLeading '-'
      (collapseRuns (fun c => c = '-') '-' false
        ((collapseRuns isKebabDelim '-' false
          (camelSplit '-' none (acronymSplit '-' none l))).map Char.toLower)))

/-- The kebab-case module's `toKebabCase`: throws for non-string input. -/
def toKebabCase : JSVal → Except String String
  | JSVal.str s => Except.ok (String.mk (toKebabStr s.data))
  | _ => Except.error "Input must be a string"

end Kebab

namespace Refined

/-- Core of the refined `toCamelCase` on a character list. -/
def toCamelStr (l : List Char) : List Char :=
  let str := jsTrim l
  if str = [] then []
  else if str.any isCamelDelim then
    let parts := ((splitRuns isCamelDelim str).filter (fun w => w ≠ [])).map
      (List.map Char.toLower)
    match parts with
    | [] => []
    | first :: rest => first ++ (rest.map capitalizeWord).flatten
  else if str ≠ [] && str.all (fun c => c.isUpper || c.isDigit) then
    str.map Char.toLower
  else if pascalTest str then
    lowerFirst str
  else if camelTest str then
    str
  else
    str.map Char.toLower

/-- The segment sequence built by the delimiter-splitting path of the refined
`toDotCase`: split on one-or-more delimiters, discard empty segments,
lowercase each segment. -/
def dotSegments (l : List Char) : List (List Char) :=
  ((splitRuns isDotDelim (jsTrim l)).filter (fun w => w ≠ [])).map (List.map Char.toLower)

/-- Core of the refined `toDotCase` on a character list. -/
def toDotStr (l : List Char) : List Char :=
  let str := jsTrim l
  if str = [] then []
  else if str.any isDotDelim then
    let parts := dotSegments l
    if parts = [] then []
    else joinSep '.' parts
  else if str ≠ [] && str.all (fun c => c.isUpper || c.isDigit) then
    str.map Char.toLower
  else
    (dropTrailingRun (fun c => c = '.') ((camelSplit '.' none (acronymSplit '.' none str)
      |> collapseRuns (fun c => c = '.') '.' false
      |> List.dropWhile (fun c => c = '.')))).map Char.toLower

/-- The refined `toCamelCase`: throws `TypeError("Input must be a string")`
for null, undefined and every non-string value. -/
def toCamelCase : JSVal → Except String String
  | JSVal.str s => Except.ok (String.mk (toCamelStr s.data))
  | _ => Except.error "Input must be a string"

/-- The refined `toDotCase`: throws `TypeError("Input must be a string")`
for null, undefined and every non-string value. -/
def toDotCase : JSVal → Except String String
  | JSVal.str s => Except.ok (String.mk (toDotStr s.data))
  | _ => Except.error "Input must be a string"

end Refined

namespace Basic

/-- The word-character class `[\p{L}\p{N}]` restricted to the ASCII range
the specification is concerned with. -/
def isWordChar (c : Char) : Bool := c.isAlpha || c.isDigit

/-- Core of `convertToCamelCase`: the maximal word-character runs of the
input, camel-joined. -/
def convertCore (l : List Char) : List Char :=
  let words := (splitRuns (fun c => !isWordChar c) l).filter (fun w => w ≠ [])
  match words with
  | [] => []
  | first :: rest =>
    first.map Char.toLower ++ (rest.map (fun w => capitalizeWord (w.map Char.toLower))).flatten

/-- `convertToCamelCase` of basic_prompt.js: returns `''` for every
non-string input and never throws. -/
def convertToCamelCase : JSVal → Except String String
  | JSVal.str s => Except.ok (String.mk (convertCore s.data))
  | _ => Except.ok ""

end Basic

namespace FewShot

/-- The character class `[A-Za-z0-9]`. -/
def isAlnumAscii (c : Char) : Bool := c.isUpper || c.isLower || c.isDigit

/-- Model of `str.split(/(?<=[a-z0-9])(?=[A-Z])/)` after the first
character: segments of `l` given the preceding character `prev`. -/
def camelBoundarySplitAux (prev : Char) : List Char → List (List Char)
  | [] => [[]]
  | c :: cs =>
    let r := camelBoundarySplitAux c cs
    let r' := match r with | w :: ws => (c :: w) :: ws | [] => [[c]]
    if (prev.isLower || prev.isDigit) && c.isUpper then [] :: r' else r'

/-- Model of `str.split(/(?<=[a-z0-9])(?=[A-Z])/)`: split before every
uppercase letter preceded by a lowercase letter or digit. -/
def camelBoundarySplit : List Char → List (List Char)
  | [] => [[]]
  | c :: cs =>
    match camelBoundarySplitAux c cs with
    | w :: ws => (c :: w) :: ws
    | [] => [[c]]

/-- Core of few_shot_prompt.js `toCamelCase` on a character list (after the
`String()` coercion). -/
def toCamelStr (s0 : List Char) : List Char :=
  let str := jsTrim s0
  if str = [] then []
  else
    let parts :=
      if str.any (fun c => !isAlnumAscii c) then
        splitRuns (fun c => !isAlnumAscii c) str
      else if str.any Char.isLower && str.any Char.isUpper then
        camelBoundarySplit str
      else [str]
    let parts := parts.filter (fun w => w ≠ [])
    match parts.map (List.map Char.toLower) with
    | [] => []
    | first :: rest => first ++ (rest.map capitalizeWord).flatten

/-- few_shot_prompt.js `toCamelCase`: returns `''` for null and undefined,
coerces every other value with `String()`, and never throws. -/
def toCamelCase : JSVal → Except String String
  | JSVal.null => Except.ok ""
  | JSVal.undef => Except.ok ""
  | v => Except.ok (String.mk (toCamelStr (jsToString v).data))

end FewShot

/-- Normal form of kebab-case outputs: no uppercase letter, no underscore or
whitespace, no two adjacent hyphens, and no leading or trailing hyphen. -/
def kebabNormal (l : List Char) : Prop :=
  (∀ c ∈ l, c.isUpper = false) ∧ (∀ c ∈ l, isKebabDelim c = false) ∧
  noRunOf (fun c => c = '-') l = true ∧
  (∀ c, l.head? = some c → c ≠ '-') ∧ (∀ c, l.getLast? = some c → c ≠ '-')

/-- Normal form of dot-case outputs: no uppercase letter, the only delimiter
character present is the dot, no two adjacent delimiter characters, and no
delimiter character at either end. -/
def dotNormal (l : List Char) : Prop :=
  (∀ c ∈ l, c.isUpper = false) ∧ (∀ c ∈ l, isDotDelim c = true → c = '.') ∧
  noRunOf isDotDelim l = true ∧
  (∀ c, l.head? = some c → isDotDelim c = false) ∧
  (∀ c, l.getLast? = some c → isDotDelim c = false)

/-! ## Character-level lemmas -/

theorem uint32_le_iff {a b : UInt32} : a ≤ b ↔ a.toNat ≤ b.toNat := by
  rw [UInt32.le_def, BitVec.le_def]; rfl

theorem char_toNat_inj {a b : Char} (h : a.toNat = b.toNat) : a = b := by
  apply Char.ext
  apply UInt32.ext
  exact h

theorem char_eq_iff_toNat {a b : Char} : a = b ↔ a.toNat = b.toNat :=
  ⟨fun h => h ▸ rfl, char_toNat_inj⟩

theorem char_toNat_lt (c : Char) : c.toNat < 1114112 := by
  have h := c.val.toBitVec.isLt
  have h2 : c.toNat = c.val.toBitVec.toNat := rfl
  rcases c.valid with h3 | h3
  · exact Nat.lt_trans h3 (by norm_num)
  · exact h3.2

theorem isUpper_iff {c : Char} : c.isUpper = true ↔ 65 ≤ c.toNat ∧ c.toNat ≤ 90 := by
  rw [Char.isUpper, Bool.and_eq_true, decide_eq_true_eq, decide_eq_true_eq,
    ge_iff_le, uint32_le_iff, uint32_le_iff]
  exact Iff.rfl

theorem isLower_iff {c : Char} : c.isLower = true ↔ 97 ≤ c.toNat ∧ c.toNat ≤ 122 := by
  rw [Char.isLower, Bool.and_eq_true, decide_eq_true_eq, decide_eq_true_eq,
    ge_iff_le, uint32_le_iff, uint32_le_iff]
  exact Iff.rfl

theorem isDigit_iff {c : Char} : c.isDigit = true ↔ 48 ≤ c.toNat ∧ c.toNat ≤ 57 := by
  rw [Char.isDigit, Bool.and_eq_true, decide_eq_true_eq, decide_eq_true_eq,
    ge_iff_le, uint32_le_iff, uint32_le_iff]
  exact Iff.rfl

theorem isWhitespace_iff {c : Char} :
    c.isWhitespace = true ↔ c.toNat = 32 ∨ c.toNat = 9 ∨ c.toNat = 13 ∨ c.toNat = 10 := by
  rw [Char.isWhitespace]
  simp only [Bool.or_eq_true, decide_eq_true_eq]
  rw [char_eq_iff_toNat, char_eq_iff_toNat, char_eq_iff_toNat, char_eq_iff_toNat]
  have e1 : (' ').toNat = 32 := by decide
  have e2 : ('\t').toNat = 9 := by decide
  have e3 : ('\r').toNat = 13 := by decide
  have e4 : ('\n').toNat = 10 := by decide
  rw [e1, e2, e3, e4]
  tauto

theorem toNat_ofNat_valid {n : Nat} (h : n < 55296) : (Char.ofNat n).toNat = n := by
  have hv : Nat.isValidChar n := Or.inl h
  rw [Char.ofNat, dif_pos hv]
  simp [Char.ofNatAux, Char.toNat, UInt32.ofNat', UInt32.toNat]

theorem toLower_eq_of_not_upper {c : Char} (h : c.isUpper = false) : c.toLower = c := by
  rw [Char.toLower, if_neg]
  intro hc
  rw [← Bool.not_eq_true, isUpper_iff] at h
  exact h hc

theorem toNat_toLower_of_upper {c : Char} (h : c.isUpper = true) :
    c.toLower.toNat = c.toNat + 32 := by
  rw [isUpper_iff] at h
  rw [Char.toLower, if_pos ⟨h.1, h.2⟩]
  exact toNat_ofNat_valid (by omega)

theorem isUpper_toLower (c : Char) : c.toLower.isUpper = false := by
  by_cases h : c.isUpper = true
  · rw [← Bool.not_eq_true, isUpper_iff, toNat_toLower_of_upper h]
    rw [isUpper_iff] at h
    omega
  · rw [toLower_eq_of_not_upper (Bool.not_eq_true _ ▸ h)]
    exact Bool.not_eq_true _ ▸ h

theorem toLower_toLower (c : Char) : c.toLower.toLower = c.toLower :=
  toLower_eq_of_not_upper (isUpper_toLower c)

theorem char_ne_of_toNat_ne {a b : Char} (h : a.toNat ≠ b.toNat) : a ≠ b :=
  fun e => h (e ▸ rfl)

theorem not_ws_of_range {c : Char} (h : 48 ≤ c.toNat) : c.isWhitespace = false := by
  rw [← Bool.not_eq_true, isWhitespace_iff]
  omega

theorem isKebabDelim_eq_false_of {c : Char} (h1 : 48 ≤ c.toNat) (h2 : c.toNat ≤ 122)
    (h3 : c.toNat ≠ 95) : isKebabDelim c = false := by
  rw [isKebabDelim, Bool.or_eq_false_iff]
  refine ⟨?_, not_ws_of_range h1⟩
  rw [decide_eq_false_iff_not]
  apply char_ne_of_toNat_ne
  have e : ('_').toNat = 95 := by decide
  omega

theorem isDotDelim_eq_false_of {c : Char} (h1 : 48 ≤ c.toNat) (h2 : c.toNat ≤ 122)
    (h3 : c.toNat ≠ 95) : isDotDelim c = false := by
  rw [isDotDelim]
  have e1 : ('.').toNat = 46 := by decide
  have e2 : ('_').toNat = 95 := by decide
  have e3 : ('-').toNat = 45 := by decide
  rw [Bool.or_eq_false_iff, Bool.or_eq_false_iff, Bool.or_eq_false_iff]
  refine ⟨⟨⟨?_, ?_⟩, ?_⟩, not_ws_of_range h1⟩ <;>
    · rw [decide_eq_false_iff_not]
      apply char_ne_of_toNat_ne
      omega

theorem isCamelDelim_eq_false_of {c : Char} (h1 : 48 ≤ c.toNat) (h2 : c.toNat ≤ 122)
    (h3 : c.toNat ≠ 95) : isCamelDelim c = false := by
  rw [isCamelDelim]
  have e2 : ('_').toNat = 95 := by decide
  have e3 : ('-').toNat = 45 := by decide
  rw [Bool.or_eq_false_iff, Bool.or_eq_false_iff]
  refine ⟨⟨?_, ?_⟩, not_ws_of_range h1⟩ <;>
    · rw [decide_eq_false_iff_not]
      apply char_ne_of_toNat_ne
      omega

theorem toNat_range_of_upper_toLower {c : Char} (h : c.isUpper = true) :
    97 ≤ c.toLower.toNat ∧ c.toLower.toNat ≤ 122 := by
  have h1 := toNat_toLower_of_upper h
  rw [isUpper_iff] at h
  omega

theorem isKebabDelim_toLower (c : Char) : isKebabDelim c.toLower = isKebabDelim c := by
  by_cases h : c.isUpper = true
  · have h1 := toNat_range_of_upper_toLower h
    have h2 := isUpper_iff.mp h
    rw [isKebabDelim_eq_false_of (by omega) h1.2 (by omega),
      isKebabDelim_eq_false_of (by omega) (by omega) (by omega)]
  · rw [toLower_eq_of_not_upper (Bool.not_eq_true _ ▸ h)]

theorem isDotDelim_toLower (c : Char) : isDotDelim c.toLower = isDotDelim c := by
  by_cases h : c.isUpper = true
  · have h1 := toNat_range_of_upper_toLower h
    have h2 := isUpper_iff.mp h
    rw [isDotDelim_eq_false_of (by omega) h1.2 (by omega),
      isDotDelim_eq_false_of (by omega) (by omega) (by omega)]
  · rw [toLower_eq_of_not_upper (Bool.not_eq_true _ ▸ h)]

/-! ## List-level lemmas about the pipeline stages -/

theorem map_id_of {α : Type} {f : α → α} : ∀ {l : List α}, (∀ a ∈ l, f a = a) → l.map f = l
  | [], _ => rfl
  | c :: cs, h => by
    rw [List.map_cons, h c (List.mem_cons_self c cs),
      map_id_of (fun a ha => h a (List.mem_cons_of_mem c ha))]

theorem acronymSplit_id_of_no_upper {sep : Char} :
    ∀ {l : List Char} (prev : Option Char), (∀ c ∈ l, c.isUpper = false) →
      acronymSplit sep prev l = l
  | [], _, _ => rfl
  | c :: cs, prev, h => by
    have hc : c.isUpper = false := h c (List.mem_cons_self c cs)
    have hrest : ∀ x ∈ cs, x.isUpper = false := fun x hx => h x (List.mem_cons_of_mem c hx)
    have ih : acronymSplit sep (some c) cs = cs :=
      acronymSplit_id_of_no_upper (some c) hrest
    cases prev with
    | none =>
      cases cs with
      | nil => rfl
      | cons n ns =>
        show (if false = true then sep :: c :: acronymSplit sep (some c) (n :: ns)
              else c :: acronymSplit sep (some c) (n :: ns)) = c :: n :: ns
        rw [if_neg (by decide)]
        exact congrArg (c :: ·) ih
    | some p =>
      cases cs with
      | nil => rfl
      | cons n ns =>
        show (if (p.isUpper && c.isUpper && n.isLower) = true
              then sep :: c :: acronymSplit sep (some c) (n :: ns)
              else c :: acronymSplit sep (some c) (n :: ns)) = c :: n :: ns
        rw [if_neg (by rw [hc]; simp)]
        exact congrArg (c :: ·) ih

theorem acronymSplit_id_of_no_lower {sep : Char} :
    ∀ {l : List Char} (prev : Option Char), (∀ c ∈ l, c.isLower = false) →
      acronymSplit sep prev l = l
  | [], _, _ => rfl
  | c :: cs, prev, h => by
    have hrest : ∀ x ∈ cs, x.isLower = false := fun x hx => h x (List.mem_cons_of_mem c hx)
    have ih : acronymSplit sep (some c) cs = cs :=
      acronymSplit_id_of_no_lower (some c) hrest
    cases prev with
    | none =>
      cases cs with
      | nil => rfl
      | cons n ns =>
        show (if false = true then sep :: c :: acronymSplit sep (some c) (n :: ns)
              else c :: acronymSplit sep (some c) (n :: ns)) = c :: n :: ns
        rw [if_neg (by decide)]
        exact congrArg (c :: ·) ih
    | some p =>
      cases cs with
      | nil => rfl
      | cons n ns =>
        have hn : n.isLower = false := hrest n (List.mem_cons_self n ns)
        show (if (p.isUpper && c.isUpper && n.isLower) = true
              then sep :: c :: acronymSplit sep (some c) (n :: ns)
              else c :: acronymSplit sep (some c) (n :: ns)) = c :: n :: ns
        rw [if_neg (by rw [hn]; simp)]
        exact congrArg (c :: ·) ih

theorem camelSplit_id_of_pairOk {sep : Char} :
    ∀ {l : List Char} {prev : Option Char}, pairOk camelBoundaryB prev l = true →
      camelSplit sep prev l = l
  | [], none, _ => rfl
  | [], some _, _ => rfl
  | c :: cs, none, h => by
    rw [pairOk] at h
    show (if false = true then sep :: c :: camelSplit sep (some c) cs
          else c :: camelSplit sep (some c) cs) = c :: cs
    rw [if_neg (by decide)]
    exact congrArg (c :: ·) (camelSplit_id_of_pairOk h)
  | c :: cs, some p, h => by
    rw [pairOk, Bool.and_eq_true] at h
    have hb : ((p.isLower || p.isDigit) && c.isUpper) = false := by
      have h1 := h.1
      rw [camelBoundaryB] at h1
      cases hcb : ((p.isLower || p.isDigit) && c.isUpper) with
      | false => rfl
      | true => rw [hcb] at h1; exact absurd h1 (by decide)
    show (if ((p.isLower || p.isDigit) && c.isUpper) = true
          then sep :: c :: camelSplit sep (some c) cs
          else c :: camelSplit sep (some c) cs) = c :: cs
    rw [if_neg (by rw [hb]; exact Bool.false_ne_true)]
    exact congrArg (c :: ·) (camelSplit_id_of_pairOk h.2)

theorem pairOk_of_no_upper :
    ∀ {l : List Char}, (∀ c ∈ l, c.isUpper = false) →
      ∀ prev, pairOk camelBoundaryB prev l = true
  | [], _, prev => by cases prev <;> rfl
  | c :: cs, h, prev => by
    have hc : c.isUpper = false := h c (List.mem_cons_self c cs)
    have hrest : ∀ x ∈ cs, x.isUpper = false := fun x hx => h x (List.mem_cons_of_mem c hx)
    cases prev with
    | none => rw [pairOk]; exact pairOk_of_no_upper hrest (some c)
    | some p =>
      rw [pairOk, Bool.and_eq_true]
      constructor
      · rw [camelBoundaryB, hc]; simp
      · exact pairOk_of_no_upper hrest (some c)

theorem camelSplit_id_of_no_upper {sep : Char} {l : List Char} (prev : Option Char)
    (h : ∀ c ∈ l, c.isUpper = false) : camelSplit sep prev l = l :=
  camelSplit_id_of_pairOk (pairOk_of_no_upper h prev)

theorem collapseRuns_id_of_none {p : Char → Bool} {r : Char} :
    ∀ {l : List Char} (b : Bool), (∀ c ∈ l, p c = false) → collapseRuns p r b l = l
  | [], _, _ => rfl
  | c :: cs, b, h => by
    have hc : p c = false := h c (List.mem_cons_self c cs)
    show (if p c = true then
            (if b = true then collapseRuns p r true cs else r :: collapseRuns p r true cs)
          else c :: collapseRuns p r false cs) = c :: cs
    rw [if_neg (by rw [hc]; exact Bool.false_ne_true)]
    exact congrArg (c :: ·)
      (collapseRuns_id_of_none false (fun x hx => h x (List.mem_cons_of_mem c hx)))

theorem noRunOf_cons {p : Char → Bool} {a : Char} {l : List Char}
    (h : noRunOf p (a :: l) = true) : noRunOf p l = true := by
  cases l with
  | nil => rfl
  | cons b bs => rw [noRunOf, Bool.and_eq_true] at h; exact h.2

theorem noRunOf_pair {p : Char → Bool} {a b : Char} {l : List Char}
    (h : noRunOf p (a :: b :: l) = true) : (p a && p b) = false := by
  rw [noRunOf, Bool.and_eq_true] at h
  have h1 := h.1
  cases hx : (p a && p b) with
  | false => rfl
  | true => rw [hx] at h1; exact absurd h1 (by decide)

theorem collapseRuns_id_of_noRun {p : Char → Bool} {r : Char} :
    ∀ {l : List Char}, (∀ c ∈ l, p c = true → c = r) → noRunOf p l = true →
      ∀ b, (b = true → (∀ c, l.head? = some c → p c = false)) →
        collapseRuns p r b l = l
  | [], _, _, b, _ => rfl
  | c :: cs, hval, hrun, b, hb => by
    show (if p c = true then
            (if b = true then collapseRuns p r true cs else r :: collapseRuns p r true cs)
          else c :: collapseRuns p r false cs) = c :: cs
    cases hc : p c with
    | false =>
      rw [if_neg (by decide : ¬(false = true))]
      refine congrArg (c :: ·) (collapseRuns_id_of_noRun
        (fun x hx => hval x (List.mem_cons_of_mem c hx)) (noRunOf_cons hrun) false ?_)
      intro hfalse; exact absurd hfalse (by decide)
    | true =>
      cases b with
      | true =>
        have := hb rfl c rfl
        rw [hc] at this
        exact absurd this (by decide)
      | false =>
        rw [if_pos rfl, if_neg (by decide : ¬(false = true))]
        rw [hval c (List.mem_cons_self c cs) hc]
        refine congrArg (r :: ·) (collapseRuns_id_of_noRun
          (fun x hx => hval x (List.mem_cons_of_mem c hx)) (noRunOf_cons hrun) true ?_)
        intro _ x hx
        cases cs with
        | nil => exact absurd hx (by simp)
        | cons d ds =>
          have hpair := noRunOf_pair hrun
          rw [hc, Bool.true_and] at hpair
          rw [List.head?_cons, Option.some_inj] at hx
          exact hx ▸ hpair

theorem mem_acronymSplit {sep : Char} :
    ∀ {l : List Char} {prev : Option Char} {c : Char},
      c ∈ acronymSplit sep prev l → c = sep ∨ c ∈ l
  | [], _, c, h => absurd h (by simp [acronymSplit])
  | x :: xs, prev, c, h => by
    have step : ∀ {ds : List Char}, c ∈ x :: acronymSplit sep (some x) ds →
        ds = xs → c = sep ∨ c ∈ x :: xs := by
      intro ds hm hds
      rcases List.mem_cons.mp hm with h1 | h1
      · exact Or.inr (h1 ▸ List.mem_cons_self x xs)
      · rcases mem_acronymSplit h1 with h3 | h3
        · exact Or.inl h3
        · exact Or.inr (List.mem_cons_of_mem x (hds ▸ h3))
    cases prev with
    | none =>
      cases xs with
      | nil => exact step h rfl
      | cons n ns => exact step h rfl
    | some p =>
      cases xs with
      | nil => exact step h rfl
      | cons n ns =>
        have h' : c ∈ (if (p.isUpper && x.isUpper && n.isLower) = true
            then sep :: x :: acronymSplit sep (some x) (n :: ns)
            else x :: acronymSplit sep (some x) (n :: ns)) := h
        by_cases hb : (p.isUpper && x.isUpper && n.isLower) = true
        · rw [if_pos hb] at h'
          rcases List.mem_cons.mp h' with h1 | h1
          · exact Or.inl h1
          · exact step h1 rfl
        · rw [if_neg hb] at h'
          exact step h' rfl

theorem mem_camelSplit {sep : Char} :
    ∀ {l : List Char} {prev : Option Char} {c : Char},
      c ∈ camelSplit sep prev l → c = sep ∨ c ∈ l
  | [], _, c, h => absurd h (by simp [camelSplit])
  | x :: xs, prev, c, h => by
    have step : c ∈ x :: camelSplit sep (some x) xs → c = sep ∨ c ∈ x :: xs := by
      intro hm
      rcases List.mem_cons.mp hm with h1 | h1
      · exact Or.inr (h1 ▸ List.mem_cons_self x xs)
      · rcases mem_camelSplit h1 with h3 | h3
        · exact Or.inl h3
        · exact Or.inr (List.mem_cons_of_mem x h3)
    cases prev with
    | none => exact step h
    | some p =>
      have h' : c ∈ (if ((p.isLower || p.isDigit) && x.isUpper) = true
          then sep :: x :: camelSplit sep (some x) xs
          else x :: camelSplit sep (some x) xs) := h
      by_cases hb : ((p.isLower || p.isDigit) && x.isUpper) = true
      · rw [if_pos hb] at h'
        rcases List.mem_cons.mp h' with h1 | h1
        · exact Or.inl h1
        · exact step h1
      · rw [if_neg hb] at h'
        exact step h'

theorem mem_collapseRuns {p : Char → Bool} {r : Char} :
    ∀ {l : List Char} {b : Bool} {c : Char},
      c ∈ collapseRuns p r b l → c = r ∨ (c ∈ l ∧ p c = false)
  | [], b, c, h => absurd h (by cases b <;> simp [collapseRuns])
  | x :: xs, b, c, h => by
    have h' : c ∈ (if p x = true then
          (if b = true then collapseRuns p r true xs else r :: collapseRuns p r true xs)
        else x :: collapseRuns p r false xs) := h
    cases hx : p x with
    | true =>
      rw [if_pos hx] at h'
      cases b with
      | true =>
        rw [if_pos rfl] at h'
        rcases mem_collapseRuns h' with h1 | h1
        · exact Or.inl h1
        · exact Or.inr ⟨List.mem_cons_of_mem x h1.1, h1.2⟩
      | false =>
        rw [if_neg (by decide : ¬(false = true))] at h'
        rcases List.mem_cons.mp h' with h1 | h1
        · exact Or.inl h1
        · rcases mem_collapseRuns h1 with h2 | h2
          · exact Or.inl h2
          · exact Or.inr ⟨List.mem_cons_of_mem x h2.1, h2.2⟩
    | false =>
      rw [if_neg (by rw [hx]; exact Bool.false_ne_true)] at h'
      rcases List.mem_cons.mp h' with h1 | h1
      · exact Or.inr ⟨h1 ▸ List.mem_cons_self x xs, h1 ▸ hx⟩
      · rcases mem_collapseRuns h1 with h2 | h2
        · exact Or.inl h2
        · exact Or.inr ⟨List.mem_cons_of_mem x h2.1, h2.2⟩

theorem mem_dropOneLeading {sep c : Char} {l : List Char}
    (h : c ∈ dropOneLeading sep l) : c ∈ l := by
  cases l with
  | nil => exact absurd h (by simp [dropOneLeading])
  | cons x xs =>
    rw [dropOneLeading] at h
    by_cases hx : x = sep
    · rw [if_pos hx] at h; exact List.mem_cons_of_mem x h
    · rwa [if_neg hx] at h

theorem mem_dropOneTrailing {sep : Char} :
    ∀ {l : List Char} {c : Char}, c ∈ dropOneTrailing sep l → c ∈ l
  | [], c, h => absurd h (by simp [dropOneTrailing])
  | [x], c, h => by
    rw [dropOneTrailing] at h
    by_cases hx : x = sep
    · rw [if_pos hx] at h; exact absurd h (by simp)
    · rwa [if_neg hx] at h
  | x :: y :: ys, c, h => by
    rw [dropOneTrailing] at h
    rcases List.mem_cons.mp h with h1 | h1
    · exact h1 ▸ List.mem_cons_self x (y :: ys)
    · exact List.mem_cons_of_mem x (mem_dropOneTrailing h1)

theorem mem_dropTrailingRun {p : Char → Bool} :
    ∀ {l : List Char} {c : Char}, c ∈ dropTrailingRun p l → c ∈ l
  | [], c, h => absurd h (by simp [dropTrailingRun])
  | x :: xs, c, h => by
    have h' : c ∈ (if dropTrailingRun p xs = [] then (if p x then [] else [x])
        else x :: dropTrailingRun p xs) := h
    by_cases hr : dropTrailingRun p xs = []
    · rw [if_pos hr] at h'
      by_cases hx : p x
      · rw [if_pos hx] at h'; exact absurd h' (by simp)
      · rw [if_neg hx] at h'
        rcases List.mem_cons.mp h' with h1 | h1
        · exact h1 ▸ List.mem_cons_self x xs
        · exact absurd h1 (by simp)
    · rw [if_neg hr] at h'
      rcases List.mem_cons.mp h' with h1 | h1
      · exact h1 ▸ List.mem_cons_self x xs
      · exact List.mem_cons_of_mem x (mem_dropTrailingRun h1)

theorem mem_dropWhile {p : Char → Bool} {l : List Char} {c : Char}
    (h : c ∈ l.dropWhile p) : c ∈ l :=
  (List.dropWhile_sublist p (l := l)).mem h

theorem mem_jsTrim {l : List Char} {c : Char} (h : c ∈ jsTrim l) : c ∈ l :=
  mem_dropWhile (mem_dropTrailingRun h)

theorem collapseRuns_inRun_head {p : Char → Bool} {r : Char} :
    ∀ {l : List Char} {c : Char} {cs : List Char},
      collapseRuns p r true l = c :: cs → p c = false
  | [], c, cs, h => by rw [collapseRuns] at h; exact absurd h (by simp)
  | x :: xs, c, cs, h => by
    have h' : (if p x = true then collapseRuns p r true xs
        else x :: collapseRuns p r false xs) = c :: cs := h
    cases hx : p x with
    | true =>
      rw [if_pos hx] at h'
      exact collapseRuns_inRun_head h'
    | false =>
      rw [if_neg (by rw [hx]; exact Bool.false_ne_true)] at h'
      rw [List.cons.injEq] at h'
      exact h'.1 ▸ hx

theorem noRunOf_collapseRuns {p : Char → Bool} {r : Char} :
    ∀ {l : List Char} (b : Bool), noRunOf p (collapseRuns p r b l) = true
  | [], b => by cases b <;> rfl
  | x :: xs, b => by
    show noRunOf p (if p x = true then
        (if b = true then collapseRuns p r true xs else r :: collapseRuns p r true xs)
      else x :: collapseRuns p r false xs) = true
    cases hx : p x with
    | true =>
      rw [if_pos rfl]
      cases b with
      | true => exact noRunOf_collapseRuns true
      | false =>
        rw [if_neg (by decide : ¬(false = true))]
        cases hrec : collapseRuns p r true xs with
        | nil => rfl
        | cons d ds =>
          have hd : p d = false := collapseRuns_inRun_head hrec
          rw [noRunOf, hd, Bool.and_false, Bool.not_false, Bool.true_and, ← hrec]
          exact noRunOf_collapseRuns true
    | false =>
      rw [if_neg (by decide : ¬(false = true))]
      cases hrec : collapseRuns p r false xs with
      | nil => rfl
      | cons d ds =>
        have hd : (p x && p d) = false := by rw [hx, Bool.false_and]
        rw [noRunOf, hd, Bool.not_false, Bool.true_and, ← hrec]
        exact noRunOf_collapseRuns false

theorem noRunOf_dropOneLeading {p : Char → Bool} {sep : Char} {l : List Char}
    (h : noRunOf p l = true) : noRunOf p (dropOneLeading sep l) = true := by
  cases l with
  | nil => rfl
  | cons x xs =>
    rw [dropOneLeading]
    by_cases hx : x = sep
    · rw [if_pos hx]; exact noRunOf_cons h
    · rwa [if_neg hx]

theorem dropOneTrailing_nil_or_head (sep : Char) :
    ∀ {l : List Char} {x : Char} {xs : List Char}, l = x :: xs →
      dropOneTrailing sep l = [] ∨ ∃ ys, dropOneTrailing sep l = x :: ys
  | [], x, xs, h => absurd h (by simp)
  | [a], x, xs, h => by
    rw [dropOneTrailing]
    by_cases ha : a = sep
    · rw [if_pos ha]; exact Or.inl rfl
    · rw [if_neg ha]
      rw [List.cons.injEq] at h
      exact Or.inr ⟨[], by rw [h.1]⟩
  | a :: b :: bs, x, xs, h => by
    rw [dropOneTrailing]
    rw [List.cons.injEq] at h
    exact Or.inr ⟨dropOneTrailing sep (b :: bs), by rw [h.1]⟩

theorem noRunOf_dropOneTrailing {p : Char → Bool} (sep : Char) :
    ∀ {l : List Char}, noRunOf p l = true → noRunOf p (dropOneTrailing sep l) = true
  | [], _ => rfl
  | [a], _ => by
    rw [dropOneTrailing]
    by_cases ha : a = sep
    · rw [if_pos ha]; rfl
    · rw [if_neg ha]; rfl
  | a :: b :: bs, h => by
    rw [dropOneTrailing]
    rcases dropOneTrailing_nil_or_head sep (rfl : b :: bs = b :: bs) with h1 | h1
    · rw [h1]; rfl
    · rcases h1 with ⟨ys, hys⟩
      rw [hys, noRunOf]
      have hpair := noRunOf_pair h
      have htail := noRunOf_dropOneTrailing sep (noRunOf_cons h)
      rw [hys] at htail
      rw [hpair, Bool.not_false, Bool.true_and]
      exact htail

theorem dropTrailingRun_nil_or_head {p : Char → Bool} :
    ∀ {l : List Char} {x : Char} {xs : List Char}, l = x :: xs →
      dropTrailingRun p l = [] ∨ ∃ ys, dropTrailingRun p l = x :: ys
  | [], x, xs, h => absurd h (by simp)
  | a :: as, x, xs, h => by
    rw [List.cons.injEq] at h
    rw [dropTrailingRun]
    by_cases hr : dropTrailingRun p as = []
    · rw [if_pos hr]
      by_cases ha : p a
      · rw [if_pos ha]; exact Or.inl rfl
      · rw [if_neg ha]; exact Or.inr ⟨[], by rw [h.1]⟩
    · rw [if_neg hr]
      exact Or.inr ⟨dropTrailingRun p as, by rw [h.1]⟩

theorem noRunOf_dropTrailingRun {p q : Char → Bool} :
    ∀ {l : List Char}, noRunOf p l = true → noRunOf p (dropTrailingRun q l) = true
  | [], _ => rfl
  | [a], _ => by
    rw [dropTrailingRun]
    by_cases ha : q a
    · rw [if_pos (by rfl : dropTrailingRun q [] = []), if_pos ha]; rfl
    · rw [if_pos (by rfl : dropTrailingRun q [] = []), if_neg ha]; rfl
  | a :: b :: bs, h => by
    rw [dropTrailingRun]
    by_cases hr : dropTrailingRun q (b :: bs) = []
    · rw [if_pos hr]
      by_cases ha : q a
      · rw [if_pos ha]; rfl
      · rw [if_neg ha]; rfl
    · rw [if_neg hr]
      rcases dropTrailingRun_nil_or_head (p := q) (rfl : b :: bs = b :: bs) with h1 | h1
      · exact absurd h1 hr
      · rcases h1 with ⟨ys, hys⟩
        rw [hys, noRunOf]
        have hpair := noRunOf_pair h
        have htail := noRunOf_dropTrailingRun (q := q) (noRunOf_cons h)
        rw [hys] at htail
        rw [hpair, Bool.not_false, Bool.true_and]
        exact htail

theorem noRunOf_dropWhile {p q : Char → Bool} :
    ∀ {l : List Char}, noRunOf p l = true → noRunOf p (l.dropWhile q) = true
  | [], _ => rfl
  | a :: as, h => by
    rw [List.dropWhile_cons]
    by_cases ha : q a = true
    · rw [if_pos ha]; exact noRunOf_dropWhile (noRunOf_cons h)
    · rw [if_neg ha]; exact h

theorem noRunOf_of_none {p : Char → Bool} :
    ∀ {l : List Char}, (∀ c ∈ l, p c = false) → noRunOf p l = true
  | [], _ => rfl
  | [_], _ => rfl
  | a :: b :: bs, h => by
    rw [noRunOf, h a (List.mem_cons_self a _), Bool.false_and, Bool.not_false, Bool.true_and]
    exact noRunOf_of_none (fun x hx => h x (List.mem_cons_of_mem a hx))

theorem head_dropOneLeading_ne {sep : Char} {l : List Char}
    (hrun : noRunOf (fun c => c = sep) l = true) :
    ∀ c, (dropOneLeading sep l).head? = some c → c ≠ sep := by
  cases l with
  | nil => intro c hc; exact absurd hc (by simp [dropOneLeading])
  | cons x xs =>
    intro c hc
    rw [dropOneLeading] at hc
    by_cases hx : x = sep
    · rw [if_pos hx] at hc
      cases xs with
      | nil => exact absurd hc (by simp)
      | cons d ds =>
        have hpair := noRunOf_pair hrun
        rw [List.head?_cons, Option.some_inj] at hc
        subst hc
        rw [decide_eq_true hx, Bool.true_and] at hpair
        exact of_decide_eq_false hpair
    · rw [if_neg hx] at hc
      rw [List.head?_cons, Option.some_inj] at hc
      subst hc
      exact hx

theorem dropOneTrailing_eq_nil {sep : Char} :
    ∀ {l : List Char}, dropOneTrailing sep l = [] → l = [] ∨ l = [sep]
  | [], _ => Or.inl rfl
  | [a], h => by
    rw [dropOneTrailing] at h
    by_cases ha : a = sep
    · exact Or.inr (by rw [ha])
    · rw [if_neg ha] at h; exact absurd h (by simp)
  | a :: b :: bs, h => by
    rw [dropOneTrailing] at h
    exact absurd h (by simp)

theorem getLast_dropOneTrailing_ne {sep : Char} :
    ∀ {l : List Char}, noRunOf (fun c => c = sep) l = true →
      ∀ c, (dropOneTrailing sep l).getLast? = some c → c ≠ sep
  | [], _, c, hc => absurd hc (by simp [dropOneTrailing])
  | [a], _, c, hc => by
    rw [dropOneTrailing] at hc
    by_cases ha : a = sep
    · rw [if_pos ha] at hc; exact absurd hc (by simp)
    · rw [if_neg ha] at hc
      rw [List.getLast?_singleton, Option.some_inj] at hc
      exact hc ▸ ha
  | a :: b :: bs, hrun, c, hc => by
    rw [dropOneTrailing] at hc
    cases hd : dropOneTrailing sep (b :: bs) with
    | nil =>
      rw [hd, List.getLast?_singleton, Option.some_inj] at hc
      subst hc
      rcases dropOneTrailing_eq_nil hd with h1 | h1
      · exact absurd h1 (by simp)
      · have hb : b = sep := by
          rw [List.cons.injEq] at h1; exact h1.1
        have hpair := noRunOf_pair hrun
        rw [decide_eq_true hb, Bool.and_true] at hpair
        exact of_decide_eq_false hpair
    | cons y ys =>
      rw [hd, List.getLast?_cons_cons, ← hd] at hc
      exact getLast_dropOneTrailing_ne (noRunOf_cons hrun) c hc

theorem head_dropWhile_not {p : Char → Bool} :
    ∀ {l : List Char} {c : Char}, (l.dropWhile p).head? = some c → p c = false
  | [], c, h => absurd h (by simp)
  | a :: as, c, h => by
    rw [List.dropWhile_cons] at h
    by_cases ha : p a = true
    · rw [if_pos ha] at h; exact head_dropWhile_not h
    · rw [if_neg ha] at h
      rw [List.head?_cons, Option.some_inj] at h
      subst h
      exact Bool.not_eq_true _ ▸ ha

theorem getLast_dropTrailingRun_not {p : Char → Bool} :
    ∀ {l : List Char} {c : Char}, (dropTrailingRun p l).getLast? = some c → p c = false
  | [], c, h => absurd h (by simp [dropTrailingRun])
  | a :: as, c, h => by
    have h' : (if dropTrailingRun p as = [] then (if p a then [] else [a])
        else a :: dropTrailingRun p as).getLast? = some c := h
    by_cases hr : dropTrailingRun p as = []
    · rw [if_pos hr] at h'
      by_cases ha : p a = true
      · rw [if_pos ha] at h'; exact absurd h' (by simp)
      · rw [if_neg ha] at h'
        rw [List.getLast?_singleton, Option.some_inj] at h'
        subst h'
        exact Bool.not_eq_true _ ▸ ha
    · rw [if_neg hr] at h'
      cases hd : dropTrailingRun p as with
      | nil => exact absurd hd hr
      | cons y ys =>
        rw [hd, List.getLast?_cons_cons, ← hd] at h'
        exact getLast_dropTrailingRun_not h'

theorem head_dropTrailingRun {p : Char → Bool} {l : List Char} {c : Char}
    (h : (dropTrailingRun p l).head? = some c) : l.head? = some c := by
  cases l with
  | nil => exact absurd h (by simp [dropTrailingRun])
  | cons x xs =>
    rcases dropTrailingRun_nil_or_head (p := p) (rfl : x :: xs = x :: xs) with h1 | h1
    · rw [h1] at h; exact absurd h (by simp)
    · rcases h1 with ⟨ys, hys⟩
      rw [hys, List.head?_cons, Option.some_inj] at h
      rw [List.head?_cons, h]

theorem head_dropOneTrailing {sep : Char} {l : List Char} {c : Char}
    (h : (dropOneTrailing sep l).head? = some c) : l.head? = some c := by
  cases l with
  | nil => exact absurd h (by simp [dropOneTrailing])
  | cons x xs =>
    rcases dropOneTrailing_nil_or_head sep (rfl : x :: xs = x :: xs) with h1 | h1
    · rw [h1] at h; exact absurd h (by simp)
    · rcases h1 with ⟨ys, hys⟩
      rw [hys, List.head?_cons, Option.some_inj] at h
      rw [List.head?_cons, h]

theorem dropOneLeading_id {sep : Char} {l : List Char}
    (h : ∀ c, l.head? = some c → c ≠ sep) : dropOneLeading sep l = l := by
  cases l with
  | nil => rfl
  | cons x xs =>
    rw [dropOneLeading, if_neg (h x rfl)]

theorem dropOneTrailing_id {sep : Char} :
    ∀ {l : List Char}, (∀ c, l.getLast? = some c → c ≠ sep) → dropOneTrailing sep l = l
  | [], _ => rfl
  | [a], h => by
    rw [dropOneTrailing, if_neg (h a rfl)]
  | a :: b :: bs, h => by
    rw [dropOneTrailing]
    refine congrArg (a :: ·) (dropOneTrailing_id ?_)
    intro c hc
    refine h c ?_
    rw [List.getLast?_cons_cons]
    exact hc

theorem kebabNormal_nil : kebabNormal [] :=
  ⟨by simp, by simp, rfl, by simp, by simp⟩

theorem kebabNormal_toKebabStr (l : List Char) : kebabNormal (Kebab.toKebabStr l) := by
  rw [Kebab.toKebabStr]
  by_cases hl : l = []
  · rw [if_pos hl]; exact kebabNormal_nil
  · rw [if_neg hl]
    set s2 := camelSplit '-' none (acronymSplit '-' none l) with hs2
    set s4 := (collapseRuns isKebabDelim '-' false s2).map Char.toLower with hs4
    set s5 := collapseRuns (fun c => c = '-') '-' false s4 with hs5
    set s6 := dropOneLeading '-' s5 with hs6
    have hup4 : ∀ c ∈ s4, c.isUpper = false := by
      intro c hc
      rcases List.mem_map.mp hc with ⟨d, _, hd⟩
      exact hd ▸ isUpper_toLower d
    have hdel4 : ∀ c ∈ s4, isKebabDelim c = false := by
      intro c hc
      rcases List.mem_map.mp hc with ⟨d, hdm, hd⟩
      rcases mem_collapseRuns hdm with h1 | h1
      · rw [← hd, h1, isKebabDelim_toLower]; decide
      · rw [← hd, isKebabDelim_toLower]; exact h1.2
    have hup5 : ∀ c ∈ s5, c.isUpper = false := by
      intro c hc
      rcases mem_collapseRuns hc with h1 | h1
      · rw [h1]; decide
      · exact hup4 c h1.1
    have hdel5 : ∀ c ∈ s5, isKebabDelim c = false := by
      intro c hc
      rcases mem_collapseRuns hc with h1 | h1
      · rw [h1]; decide
      · exact hdel4 c h1.1
    have hrun5 : noRunOf (fun c => c = '-') s5 = true := noRunOf_collapseRuns false
    have hrun6 : noRunOf (fun c => c = '-') s6 = true := noRunOf_dropOneLeading hrun5
    refine ⟨?_, ?_, ?_, ?_, ?_⟩
    · intro c hc
      exact hup5 c (mem_dropOneLeading (mem_dropOneTrailing hc))
    · intro c hc
      exact hdel5 c (mem_dropOneLeading (mem_dropOneTrailing hc))
    · exact noRunOf_dropOneTrailing '-' hrun6
    · intro c hc
      exact head_dropOneLeading_ne hrun5 c (head_dropOneTrailing hc)
    · intro c hc
      exact getLast_dropOneTrailing_ne hrun6 c hc

theorem toKebabStr_id_of_normal {m : List Char} (h : kebabNormal m) :
    Kebab.toKebabStr m = m := by
  obtain ⟨hup, hdel, hrun, hhead, hlast⟩ := h
  rw [Kebab.toKebabStr]
  by_cases hm : m = []
  · rw [if_pos hm, hm]
  · rw [if_neg hm]
    rw [acronymSplit_id_of_no_upper none hup,
      camelSplit_id_of_no_upper none hup,
      collapseRuns_id_of_none false hdel,
      map_id_of (fun a ha => toLower_eq_of_not_upper (hup a ha)),
      collapseRuns_id_of_noRun (fun c _ hc => of_decide_eq_true hc) hrun false
        (fun hfalse => absurd hfalse (by decide)),
      dropOneLeading_id hhead, dropOneTrailing_id hlast]

theorem splitRuns_unfold (p : Char → Bool) (c : Char) (cs : List Char) :
    splitRuns p (c :: cs)
      = if p c = true then (match cs with
          | c2 :: _ => if p c2 = true then splitRuns p cs else [] :: splitRuns p cs
          | [] => [] :: splitRuns p cs)
        else (match splitRuns p cs with | w :: ws => (c :: w) :: ws | [] => [[c]]) := rfl

theorem splitRuns_cons_of_delim_nil {p : Char → Bool} {c : Char} (hc : p c = true) :
    splitRuns p (c :: []) = [] :: splitRuns p ([] : List Char) := by
  rw [splitRuns_unfold, if_pos hc]

theorem splitRuns_cons_of_delim_not {p : Char → Bool} {c d : Char} {ds : List Char}
    (hc : p c = true) (hd : p d = false) :
    splitRuns p (c :: d :: ds) = [] :: splitRuns p (d :: ds) := by
  rw [splitRuns_unfold, if_pos hc]
  show (if p d = true then splitRuns p (d :: ds) else [] :: splitRuns p (d :: ds))
      = [] :: splitRuns p (d :: ds)
  rw [if_neg (by rw [hd]; exact Bool.false_ne_true)]

theorem splitRuns_cons_of_delim_delim {p : Char → Bool} {c d : Char} {ds : List Char}
    (hc : p c = true) (hd : p d = true) :
    splitRuns p (c :: d :: ds) = splitRuns p (d :: ds) := by
  rw [splitRuns_unfold, if_pos hc]
  show (if p d = true then splitRuns p (d :: ds) else [] :: splitRuns p (d :: ds))
      = splitRuns p (d :: ds)
  rw [if_pos hd]

theorem splitRuns_ne_nil {p : Char → Bool} : ∀ {l : List Char}, splitRuns p l ≠ []
  | [] => by simp [splitRuns]
  | [c] => by
    by_cases hc : p c = true
    · rw [splitRuns_cons_of_delim_nil hc]; simp
    · rw [splitRuns_unfold, if_neg hc]
      show (match splitRuns p ([] : List Char) with
        | w :: ws => (c :: w) :: ws | [] => [[c]]) ≠ []
      rw [show splitRuns p ([] : List Char) = [[]] from rfl]
      simp
  | c :: d :: ds => by
    by_cases hc : p c = true
    · by_cases hd : p d = true
      · rw [splitRuns_cons_of_delim_delim hc hd]; exact splitRuns_ne_nil
      · rw [splitRuns_cons_of_delim_not hc (Bool.not_eq_true _ ▸ hd)]; simp
    · rw [splitRuns_unfold, if_neg hc]
      show (match splitRuns p (d :: ds) with
        | w :: ws => (c :: w) :: ws | [] => [[c]]) ≠ []
      cases hr : splitRuns p (d :: ds) with
      | nil => exact absurd hr splitRuns_ne_nil
      | cons w ws => simp

theorem splitRuns_cons_of_not {p : Char → Bool} {c : Char} {t : List Char}
    (hc : p c = false) :
    ∃ w ws, splitRuns p t = w :: ws ∧ splitRuns p (c :: t) = (c :: w) :: ws := by
  cases hr : splitRuns p t with
  | nil => exact absurd hr splitRuns_ne_nil
  | cons w ws =>
    refine ⟨w, ws, rfl, ?_⟩
    rw [splitRuns_unfold, if_neg (by rw [hc]; exact Bool.false_ne_true)]
    show (match splitRuns p t with | w :: ws => (c :: w) :: ws | [] => [[c]])
        = (c :: w) :: ws
    rw [hr]

theorem splitRuns_word_chars {p : Char → Bool} :
    ∀ {l : List Char} {w : List Char}, w ∈ splitRuns p l →
      ∀ c ∈ w, p c = false ∧ c ∈ l
  | [], w, hw, c, hc => by
    rw [show splitRuns p [] = [[]] from rfl] at hw
    rcases List.mem_singleton.mp hw with h
    exact absurd (h ▸ hc) (by simp)
  | x :: xs, w, hw, c, hc => by
    by_cases hx : p x = true
    · cases xs with
      | nil =>
        rw [splitRuns_cons_of_delim_nil hx] at hw
        rcases List.mem_cons.mp hw with h1 | h1
        · exact absurd (h1 ▸ hc) (by simp)
        · rcases splitRuns_word_chars h1 c hc with ⟨h2, h3⟩
          exact absurd h3 (by simp)
      | cons d ds =>
        by_cases hd : p d = true
        · rw [splitRuns_cons_of_delim_delim hx hd] at hw
          rcases splitRuns_word_chars hw c hc with ⟨h2, h3⟩
          exact ⟨h2, List.mem_cons_of_mem x h3⟩
        · rw [splitRuns_cons_of_delim_not hx (Bool.not_eq_true _ ▸ hd)] at hw
          rcases List.mem_cons.mp hw with h1 | h1
          · exact absurd (h1 ▸ hc) (by simp)
          · rcases splitRuns_word_chars h1 c hc with ⟨h2, h3⟩
            exact ⟨h2, List.mem_cons_of_mem x h3⟩
    · rcases splitRuns_cons_of_not (Bool.not_eq_true _ ▸ hx) with ⟨w0, ws0, hr, he⟩
      rw [he] at hw
      rcases List.mem_cons.mp hw with h1 | h1
      · subst h1
        rcases List.mem_cons.mp hc with h2 | h2
        · exact ⟨h2 ▸ (Bool.not_eq_true _ ▸ hx), h2 ▸ List.mem_cons_self x xs⟩
        · rcases splitRuns_word_chars (hr ▸ List.mem_cons_self w0 ws0) c h2 with ⟨h3, h4⟩
          exact ⟨h3, List.mem_cons_of_mem x h4⟩
      · rcases splitRuns_word_chars (hr ▸ List.mem_cons_of_mem w0 h1) c hc with ⟨h3, h4⟩
        exact ⟨h3, List.mem_cons_of_mem x h4⟩

theorem flatten_filter_splitRuns {p : Char → Bool} :
    ∀ {l : List Char},
      ((splitRuns p l).filter (fun w => w ≠ [])).flatten = l.filter (fun c => !p c)
  | [] => by simp [splitRuns]
  | x :: xs => by
    by_cases hx : p x = true
    · have hrx : List.filter (fun c => !p c) (x :: xs) = xs.filter (fun c => !p c) :=
        List.filter_cons_of_neg (by simp [hx])
      cases xs with
      | nil =>
        rw [splitRuns_cons_of_delim_nil hx, hrx]
        simp [splitRuns]
      | cons d ds =>
        by_cases hd : p d = true
        · rw [splitRuns_cons_of_delim_delim hx hd, hrx]
          exact flatten_filter_splitRuns
        · rw [splitRuns_cons_of_delim_not hx (Bool.not_eq_true _ ▸ hd), hrx]
          rw [List.filter_cons_of_neg (p := fun w => decide (w ≠ [])) (by simp)]
          exact flatten_filter_splitRuns
    · have hx' : p x = false := Bool.not_eq_true _ ▸ hx
      have hrx : List.filter (fun c => !p c) (x :: xs)
          = x :: xs.filter (fun c => !p c) :=
        List.filter_cons_of_pos (by simp [hx'])
      rcases splitRuns_cons_of_not hx' with ⟨w0, ws0, hr, he⟩
      rw [he, hrx]
      rw [List.filter_cons_of_pos (p := fun w => decide (w ≠ [])) (by simp)]
      rw [List.flatten_cons, List.cons_append]
      have ihx : ((splitRuns p xs).filter (fun w => w ≠ [])).flatten
          = xs.filter (fun c => !p c) := flatten_filter_splitRuns
      rw [hr] at ihx
      refine congrArg (x :: ·) ?_
      by_cases hw0 : w0 = []
      · subst hw0
        rw [List.filter_cons_of_neg (p := fun w => decide (w ≠ [])) (by simp)] at ihx
        rw [← ihx]
        simp
      · rw [List.filter_cons_of_pos (p := fun w => decide (w ≠ [])) (by simpa using hw0),
          List.flatten_cons] at ihx
        rw [← ihx]

theorem mem_of_head? {l : List Char} {c : Char} (h : l.head? = some c) : c ∈ l := by
  cases l with
  | nil => exact absurd h (by simp)
  | cons x xs =>
    rw [List.head?_cons, Option.some_inj] at h
    exact h ▸ List.mem_cons_self x xs

theorem mem_of_getLast? : ∀ {l : List Char} {c : Char}, l.getLast? = some c → c ∈ l
  | [], c, h => absurd h (by simp)
  | [a], c, h => by
    rw [List.getLast?_singleton, Option.some_inj] at h
    exact h ▸ List.mem_cons_self a []
  | a :: b :: bs, c, h => by
    rw [List.getLast?_cons_cons] at h
    exact List.mem_cons_of_mem a (mem_of_getLast? h)

theorem dropWhile_id_of_none {p : Char → Bool} :
    ∀ {l : List Char}, (∀ c ∈ l, p c = false) → l.dropWhile p = l
  | [], _ => rfl
  | a :: as, h => by
    rw [List.dropWhile_cons,
      if_neg (by rw [h a (List.mem_cons_self a as)]; exact Bool.false_ne_true)]

theorem dropTrailingRun_id_of_last {p : Char → Bool} :
    ∀ {l : List Char}, (∀ c, l.getLast? = some c → p c = false) →
      dropTrailingRun p l = l
  | [], _ => rfl
  | [a], h => by
    have ha : p a = false := h a rfl
    rw [dropTrailingRun]
    rw [if_pos (show dropTrailingRun p [] = [] from rfl),
      if_neg (by rw [ha]; exact Bool.false_ne_true)]
  | a :: b :: bs, h => by
    have ih := dropTrailingRun_id_of_last (l := b :: bs)
      (fun c hc => h c (by rw [List.getLast?_cons_cons]; exact hc))
    rw [dropTrailingRun, if_neg (by rw [ih]; simp), ih]

theorem jsTrim_id_of_no_ws {l : List Char} (h : ∀ c ∈ l, c.isWhitespace = false) :
    jsTrim l = l := by
  rw [jsTrim, dropWhile_id_of_none h,
    dropTrailingRun_id_of_last (fun c hc => h c (mem_of_getLast? hc))]

theorem joinSep_cons_head {sep c : Char} {w : List Char} {ws : List (List Char)} :
    joinSep sep ((c :: w) :: ws) = c :: joinSep sep (w :: ws) := by
  cases ws with
  | nil => rfl
  | cons w2 ws2 => rfl

theorem joinSep_ne_nil {sep : Char} {w : List Char} {ws : List (List Char)}
    (hw : w ≠ []) : joinSep sep (w :: ws) ≠ [] := by
  cases ws with
  | nil => exact hw
  | cons w2 ws2 =>
    show w ++ sep :: joinSep sep (w2 :: ws2) ≠ []
    simp

theorem mem_joinSep {sep : Char} :
    ∀ {ps : List (List Char)} {c : Char}, c ∈ joinSep sep ps →
      c = sep ∨ ∃ w ∈ ps, c ∈ w
  | [], c, h => absurd h (by simp [joinSep])
  | [w], c, h => Or.inr ⟨w, List.mem_cons_self w [], h⟩
  | w :: w2 :: ws, c, h => by
    have h' : c ∈ w ++ sep :: joinSep sep (w2 :: ws) := h
    rcases List.mem_append.mp h' with h1 | h1
    · exact Or.inr ⟨w, List.mem_cons_self w _, h1⟩
    · rcases List.mem_cons.mp h1 with h2 | h2
      · exact Or.inl h2
      · rcases mem_joinSep h2 with h3 | h3
        · exact Or.inl h3
        · rcases h3 with ⟨w', hw', hc'⟩
          exact Or.inr ⟨w', List.mem_cons_of_mem w hw', hc'⟩

theorem head_joinSep {sep c : Char} {w : List Char} {ws : List (List Char)} :
    (joinSep sep ((c :: w) :: ws)).head? = some c := by
  rw [joinSep_cons_head, List.head?_cons]

theorem getLast_joinSep {sep : Char} :
    ∀ {ps : List (List Char)} {w : List Char}, (∀ u ∈ ps, u ≠ []) →
      ∀ {c : Char}, (joinSep sep ps).getLast? = some c →
        ∃ u ∈ ps, u.getLast? = some c
  | [], w, _, c, hc => absurd hc (by simp [joinSep])
  | [u], w, _, c, hc => ⟨u, List.mem_cons_self u [], hc⟩
  | u :: u2 :: us, w, hne, c, hc => by
    have h' : (u ++ sep :: joinSep sep (u2 :: us)).getLast? = some c := hc
    have hjoin : joinSep sep (u2 :: us) ≠ [] :=
      joinSep_ne_nil (hne u2 (List.mem_cons_of_mem u (List.mem_cons_self u2 us)))
    rw [List.getLast?_append_cons] at h'
    cases hj : joinSep sep (u2 :: us) with
    | nil => exact absurd hj hjoin
    | cons y ys =>
      rw [hj, List.getLast?_cons_cons, ← hj] at h'
      rcases getLast_joinSep (w := w) (fun x hx => hne x (List.mem_cons_of_mem u hx)) h'
        with ⟨u', hu', hc'⟩
      exact ⟨u', List.mem_cons_of_mem u hu', hc'⟩

theorem noRunOf_append {p : Char → Bool} :
    ∀ {xs ys : List Char}, noRunOf p xs = true → noRunOf p ys = true →
      (∀ a b, xs.getLast? = some a → ys.head? = some b → (p a && p b) = false) →
      noRunOf p (xs ++ ys) = true
  | [], ys, _, hy, _ => hy
  | [a], ys, _, hy, hmid => by
    cases ys with
    | nil => rfl
    | cons b bs =>
      show noRunOf p (a :: b :: bs) = true
      rw [noRunOf, hmid a b rfl rfl, Bool.not_false, Bool.true_and]
      exact hy
  | a :: b :: xs', ys, hx, hy, hmid => by
    show noRunOf p (a :: (b :: xs' ++ ys)) = true
    have hrec := noRunOf_append (noRunOf_cons hx) hy
      (fun a' b' ha' hb' => hmid a' b' (by rw [List.getLast?_cons_cons]; exact ha') hb')
    show noRunOf p (a :: b :: (xs' ++ ys)) = true
    rw [noRunOf, noRunOf_pair hx, Bool.not_false, Bool.true_and]
    exact hrec

theorem head_map_toLower {l : List Char} :
    (l.map Char.toLower).head? = l.head?.map Char.toLower := by
  cases l <;> rfl

theorem getLast_map_toLower :
    ∀ {l : List Char}, (l.map Char.toLower).getLast? = l.getLast?.map Char.toLower
  | [] => rfl
  | [a] => rfl
  | a :: b :: bs => by
    rw [List.map_cons, List.map_cons, List.getLast?_cons_cons, ← List.map_cons,
      getLast_map_toLower, List.getLast?_cons_cons]

theorem noRunOf_map_toLower_dot :
    ∀ {l : List Char}, noRunOf isDotDelim l = true →
      noRunOf isDotDelim (l.map Char.toLower) = true
  | [], _ => rfl
  | [_], _ => rfl
  | a :: b :: bs, h => by
    rw [List.map_cons, List.map_cons, noRunOf, isDotDelim_toLower, isDotDelim_toLower,
      noRunOf_pair h, Bool.not_false, Bool.true_and, ← List.map_cons]
    exact noRunOf_map_toLower_dot (noRunOf_cons h)

theorem dotNormal_nil : dotNormal [] :=
  ⟨by simp, by simp, rfl, by simp, by simp⟩

theorem dotNormal_joinSep :
    ∀ {ps : List (List Char)}, (∀ w ∈ ps, w ≠ []) →
      (∀ w ∈ ps, ∀ c ∈ w, isDotDelim c = false) →
      (∀ w ∈ ps, ∀ c ∈ w, c.isUpper = false) →
      dotNormal (joinSep '.' ps)
  | [], _, _, _ => dotNormal_nil
  | [w], hne, hdel, hup => by
    refine ⟨fun c hc => hup w (List.mem_cons_self w []) c hc,
      fun c hc h => absurd h (by rw [hdel w (List.mem_cons_self w []) c hc]; simp),
      noRunOf_of_none (hdel w (List.mem_cons_self w [])), ?_, ?_⟩
    · intro c hc
      exact hdel w (List.mem_cons_self w []) c (mem_of_head? hc)
    · intro c hc
      exact hdel w (List.mem_cons_self w []) c (mem_of_getLast? hc)
  | w :: w2 :: ws, hne, hdel, hup => by
    have hw : w ≠ [] := hne w (List.mem_cons_self w _)
    have hdelw : ∀ c ∈ w, isDotDelim c = false := hdel w (List.mem_cons_self w _)
    have hrest : dotNormal (joinSep '.' (w2 :: ws)) := dotNormal_joinSep
      (fun u hu => hne u (List.mem_cons_of_mem w hu))
      (fun u hu => hdel u (List.mem_cons_of_mem w hu))
      (fun u hu => hup u (List.mem_cons_of_mem w hu))
    obtain ⟨rup, rdel, rrun, rhead, rlast⟩ := hrest
    have hjoin : joinSep '.' (w :: w2 :: ws) = w ++ '.' :: joinSep '.' (w2 :: ws) := rfl
    have hmem : ∀ c ∈ w ++ '.' :: joinSep '.' (w2 :: ws),
        (c ∈ w ∨ c = '.' ∨ c ∈ joinSep '.' (w2 :: ws)) := by
      intro c hc
      rcases List.mem_append.mp hc with h1 | h1
      · exact Or.inl h1
      · rcases List.mem_cons.mp h1 with h2 | h2
        · exact Or.inr (Or.inl h2)
        · exact Or.inr (Or.inr h2)
    rw [hjoin]
    refine ⟨?_, ?_, ?_, ?_, ?_⟩
    · intro c hc
      rcases hmem c hc with h1 | h1 | h1
      · exact hup w (List.mem_cons_self w _) c h1
      · rw [h1]; decide
      · exact rup c h1
    · intro c hc hdc
      rcases hmem c hc with h1 | h1 | h1
      · exact absurd hdc (by rw [hdelw c h1]; simp)
      · exact h1
      · exact rdel c h1 hdc
    · refine noRunOf_append (noRunOf_of_none hdelw) ?_ ?_
      · cases hj : joinSep '.' (w2 :: ws) with
        | nil => rfl
        | cons y ys =>
          show noRunOf isDotDelim ('.' :: y :: ys) = true
          have hy : isDotDelim y = false := rhead y (by rw [hj]; rfl)
          rw [noRunOf, hy, Bool.and_false, Bool.not_false, Bool.true_and, ← hj]
          exact rrun
      · intro a b ha hb
        rw [List.head?_cons, Option.some_inj] at hb
        rw [hdelw a (mem_of_getLast? ha), Bool.false_and]
    · intro c hc
      cases hwc : w with
      | nil => exact absurd hwc hw
      | cons x xs =>
        rw [hwc, List.cons_append, List.head?_cons, Option.some_inj] at hc
        exact hdelw c (by rw [hwc, ← hc]; exact List.mem_cons_self x xs)
    · intro c hc
      rw [List.getLast?_append_cons] at hc
      cases hj : joinSep '.' (w2 :: ws) with
      | nil =>
        exact absurd hj (joinSep_ne_nil (hne w2 (List.mem_cons_of_mem w
          (List.mem_cons_self w2 ws))))
      | cons y ys =>
        rw [hj, List.getLast?_cons_cons, ← hj] at hc
        exact rlast c hc

theorem splitRuns_reconstruct :
    ∀ (n : Nat) {m : List Char}, m.length ≤ n →
      (∀ c ∈ m, isDotDelim c = true → c = '.') →
      noRunOf isDotDelim m = true →
      (∀ c, m.head? = some c → isDotDelim c = false) →
      (∀ c, m.getLast? = some c → isDotDelim c = false) →
      joinSep '.' ((splitRuns isDotDelim m).filter (fun w => w ≠ [])) = m
  | _, [], _, _, _, _, _ => by simp [splitRuns, joinSep]
  | 0, c :: cs, hlen, _, _, _, _ => by simp at hlen
  | n+1, c :: cs, hlen, hdel, hrun, hhead, hlast => by
    have hc : isDotDelim c = false := hhead c rfl
    rcases splitRuns_cons_of_not (t := cs) hc with ⟨w0, ws0, hr, he⟩
    cases cs with
    | nil =>
      rw [show splitRuns isDotDelim ([] : List Char) = [[]] from rfl,
        List.cons.injEq] at hr
      rw [he, ← hr.1, ← hr.2]
      rw [List.filter_cons_of_pos (p := fun w => decide (w ≠ [])) (by simp)]
      rfl
    | cons c2 cs2 =>
      by_cases hd2 : isDotDelim c2 = true
      · have hc2 : c2 = '.' :=
          hdel c2 (List.mem_cons_of_mem c (List.mem_cons_self c2 cs2)) hd2
        cases cs2 with
        | nil =>
          have : isDotDelim c2 = false := by
            refine hlast c2 ?_
            rw [List.getLast?_cons_cons]
            rfl
          rw [this] at hd2
          exact absurd hd2 (by decide)
        | cons d ds =>
          have hpair := noRunOf_pair (noRunOf_cons hrun)
          rw [hd2, Bool.true_and] at hpair
          rw [splitRuns_cons_of_delim_not hd2 hpair] at hr
          rw [List.cons.injEq] at hr
          have ihrec := splitRuns_reconstruct n (m := d :: ds)
            (by simp at hlen ⊢; omega)
            (fun x hx => hdel x (List.mem_cons_of_mem c (List.mem_cons_of_mem c2 hx)))
            (noRunOf_cons (noRunOf_cons hrun))
            (fun x hx => by
              rw [List.head?_cons, Option.some_inj] at hx
              exact hx ▸ hpair)
            (fun x hx => hlast x (by rw [List.getLast?_cons_cons,
              List.getLast?_cons_cons]; exact hx))
          rw [he, ← hr.1, ← hr.2]
          rw [List.filter_cons_of_pos (p := fun w => decide (w ≠ [])) (by simp)]
          cases hrest : (splitRuns isDotDelim (d :: ds)).filter (fun w => w ≠ []) with
          | nil =>
            rw [hrest] at ihrec
            exact absurd ihrec.symm (by simp [joinSep])
          | cons r1 rrest =>
            rw [hrest] at ihrec
            have hjs : joinSep '.' ([c] :: r1 :: rrest)
                = c :: '.' :: joinSep '.' (r1 :: rrest) := rfl
            rw [hjs, ihrec, hc2]
      · have hd2' : isDotDelim c2 = false := Bool.not_eq_true _ ▸ hd2
        rcases splitRuns_cons_of_not hd2' with ⟨w1, ws1, hr1, he1⟩
        rw [he1, List.cons.injEq] at hr
        have ihrec := splitRuns_reconstruct n (m := c2 :: cs2)
          (by simp at hlen ⊢; omega)
          (fun x hx => hdel x (List.mem_cons_of_mem c hx))
          (noRunOf_cons hrun)
          (fun x hx => by
            rw [List.head?_cons, Option.some_inj] at hx
            exact hx ▸ hd2')
          (fun x hx => hlast x (by rw [List.getLast?_cons_cons]; exact hx))
        rw [he1] at ihrec
        rw [List.filter_cons_of_pos (p := fun w => decide (w ≠ [])) (by simp)] at ihrec
        rw [he, ← hr.1, ← hr.2]
        rw [List.filter_cons_of_pos (p := fun w => decide (w ≠ [])) (by simp)]
        rw [show (c :: c2 :: w1) = c :: (c2 :: w1) from rfl, joinSep_cons_head]
        rw [ihrec]

theorem toDotStr_unfold (l : List Char) :
    Refined.toDotStr l =
      (if jsTrim l = [] then []
       else if (jsTrim l).any isDotDelim then
         (if Refined.dotSegments l = [] then [] else joinSep '.' (Refined.dotSegments l))
       else if jsTrim l ≠ [] && (jsTrim l).all (fun c => c.isUpper || c.isDigit) then
         (jsTrim l).map Char.toLower
       else
         (dropTrailingRun (fun c => c = '.') (List.dropWhile (fun c => c = '.')
           (collapseRuns (fun c => c = '.') '.' false
             (camelSplit '.' none (acronymSplit '.' none (jsTrim l)))))).map Char.toLower)
    := rfl

theorem noRunOf_dot_to_dotDelim :
    ∀ {l : List Char}, (∀ c ∈ l, isDotDelim c = true → c = '.') →
      noRunOf (fun c => c = '.') l = true → noRunOf isDotDelim l = true
  | [], _, _ => rfl
  | [_], _, _ => rfl
  | a :: b :: bs, hdel, hrun => by
    rw [noRunOf]
    have hpair := noRunOf_pair hrun
    have hab : (isDotDelim a && isDotDelim b) = false := by
      cases hda : isDotDelim a with
      | false => rw [Bool.false_and]
      | true =>
        cases hdb : isDotDelim b with
        | false => rw [Bool.and_false]
        | true =>
          have ha : a = '.' := hdel a (List.mem_cons_self a _) hda
          have hb : b = '.' := hdel b (List.mem_cons_of_mem a (List.mem_cons_self b bs)) hdb
          rw [decide_eq_true ha, decide_eq_true hb] at hpair
          exact absurd hpair (by decide)
    rw [hab, Bool.not_false, Bool.true_and]
    exact noRunOf_dot_to_dotDelim (fun c hc => hdel c (List.mem_cons_of_mem a hc))
      (noRunOf_cons hrun)

theorem dotNormal_toDotStr (l : List Char) : dotNormal (Refined.toDotStr l) := by
  rw [toDotStr_unfold]
  by_cases h1 : jsTrim l = []
  · rw [if_pos h1]; exact dotNormal_nil
  · rw [if_neg h1]
    by_cases h2 : (jsTrim l).any isDotDelim = true
    · rw [if_pos h2]
      by_cases h3 : Refined.dotSegments l = []
      · rw [if_pos h3]; exact dotNormal_nil
      · rw [if_neg h3]
        have hseg : ∀ w ∈ Refined.dotSegments l,
            ∃ w', w = w'.map Char.toLower ∧ w' ≠ [] ∧ ∀ c ∈ w', isDotDelim c = false := by
          intro w hw
          rw [Refined.dotSegments] at hw
          rcases List.mem_map.mp hw with ⟨w', hw', hmapw⟩
          rcases List.mem_filter.mp hw' with ⟨hw's, hw'ne⟩
          refine ⟨w', hmapw.symm, by simpa using hw'ne, ?_⟩
          intro c hc
          exact (splitRuns_word_chars hw's c hc).1
        refine dotNormal_joinSep ?_ ?_ ?_
        · intro w hw
          rcases hseg w hw with ⟨w', hmapw, hne, _⟩
          rw [hmapw]
          simpa using hne
        · intro w hw c hc
          rcases hseg w hw with ⟨w', hmapw, _, hdelw⟩
          rw [hmapw] at hc
          rcases List.mem_map.mp hc with ⟨d, hd, hdc⟩
          rw [← hdc, isDotDelim_toLower]
          exact hdelw d hd
        · intro w hw c hc
          rcases hseg w hw with ⟨w', hmapw, _, _⟩
          rw [hmapw] at hc
          rcases List.mem_map.mp hc with ⟨d, _, hdc⟩
          exact hdc ▸ isUpper_toLower d
    · rw [if_neg h2]
      by_cases h4 : (decide (jsTrim l ≠ []) && (jsTrim l).all (fun c => c.isUpper || c.isDigit))
          = true
      · rw [if_pos h4]
        rw [Bool.and_eq_true] at h4
        have hall := List.all_eq_true.mp h4.2
        have hchars : ∀ c ∈ (jsTrim l).map Char.toLower,
            isDotDelim c = false ∧ c.isUpper = false := by
          intro c hc
          rcases List.mem_map.mp hc with ⟨d, hd, hdc⟩
          have hor := hall d hd
          rw [Bool.or_eq_true] at hor
          rcases hor with hdu | hdd
          · have hr := toNat_range_of_upper_toLower hdu
            exact ⟨hdc ▸ isDotDelim_eq_false_of (by omega) (by omega) (by omega),
              hdc ▸ isUpper_toLower d⟩
          · have hdig := isDigit_iff.mp hdd
            have hdu' : d.isUpper = false := by
              cases hx : d.isUpper with
              | false => rfl
              | true => have := isUpper_iff.mp hx; omega
            rw [← hdc, toLower_eq_of_not_upper hdu']
            exact ⟨isDotDelim_eq_false_of (by omega) (by omega) (by omega), hdu'⟩
        refine ⟨fun c hc => (hchars c hc).2, fun c hc h => absurd h (by
            rw [(hchars c hc).1]; simp), noRunOf_of_none (fun c hc => (hchars c hc).1),
          fun c hc => (hchars c (mem_of_head? hc)).1,
          fun c hc => (hchars c (mem_of_getLast? hc)).1⟩
      · rw [if_neg h4]
        have hnodelim : ∀ c ∈ jsTrim l, isDotDelim c = false := by
          intro c hc
          have := List.any_eq_false.mp (Bool.not_eq_true _ ▸ h2) c hc
          cases hx : isDotDelim c with
          | false => rfl
          | true => exact absurd hx this
        set s3 := collapseRuns (fun c => c = '.') '.' false
          (camelSplit '.' none (acronymSplit '.' none (jsTrim l))) with hs3
        set s4 := List.dropWhile (fun c => c = '.') s3 with hs4
        set s5 := dropTrailingRun (fun c => c = '.') s4 with hs5
        have hdel3 : ∀ c ∈ s3, isDotDelim c = true → c = '.' := by
          intro c hc hdc
          rcases mem_collapseRuns hc with h5 | h5
          · exact h5
          · rcases mem_camelSplit h5.1 with h6 | h6
            · exact h6
            · rcases mem_acronymSplit h6 with h7 | h7
              · exact h7
              · exact absurd hdc (by rw [hnodelim c h7]; simp)
        have hup3 : ∀ c ∈ s3, c.isUpper = true → c = '.' → False := by
          intro c _ hcu hcd
          rw [hcd] at hcu
          exact absurd hcu (by decide)
        have hrun3 : noRunOf isDotDelim s3 = true :=
          noRunOf_dot_to_dotDelim hdel3 (noRunOf_collapseRuns false)
        have hmem4 : ∀ c ∈ s4, c ∈ s3 := fun c hc => mem_dropWhile hc
        have hmem5 : ∀ c ∈ s5, c ∈ s3 := fun c hc => hmem4 c (mem_dropTrailingRun hc)
        have hdel5 : ∀ c ∈ s5, isDotDelim c = true → c = '.' :=
          fun c hc => hdel3 c (hmem5 c hc)
        have hrun5 : noRunOf isDotDelim s5 = true :=
          noRunOf_dropTrailingRun (noRunOf_dropWhile hrun3)
        have hhead5 : ∀ c, s5.head? = some c → isDotDelim c = false := by
          intro c hc
          have hc3 := head_dropWhile_not (head_dropTrailingRun hc)
          cases hx : isDotDelim c with
          | false => rfl
          | true =>
            have := hdel5 c (mem_of_head? hc) hx
            rw [this] at hc3
            exact absurd hc3 (by simp)
        have hlast5 : ∀ c, s5.getLast? = some c → isDotDelim c = false := by
          intro c hc
          have hc3 := getLast_dropTrailingRun_not hc
          cases hx : isDotDelim c with
          | false => rfl
          | true =>
            have := hdel5 c (mem_of_getLast? hc) hx
            rw [this] at hc3
            exact absurd hc3 (by simp)
        refine ⟨?_, ?_, ?_, ?_, ?_⟩
        · intro c hc
          rcases List.mem_map.mp hc with ⟨d, _, hdc⟩
          exact hdc ▸ isUpper_toLower d
        · intro c hc hdc
          rcases List.mem_map.mp hc with ⟨d, hd, hdc2⟩
          have hdd : isDotDelim d = true := by
            rw [← isDotDelim_toLower, hdc2]
            exact hdc
          have hd' : d = '.' := hdel5 d hd hdd
          rw [← hdc2, hd']
          exact toLower_eq_of_not_upper (by decide)
        · exact noRunOf_map_toLower_dot hrun5
        · intro c hc
          rw [head_map_toLower] at hc
          cases hx : s5.head? with
          | none => rw [hx] at hc; exact absurd hc (by simp)
          | some d =>
            rw [hx, Option.map_some'] at hc
            rw [Option.some_inj] at hc
            rw [← hc, isDotDelim_toLower]
            exact hhead5 d hx
        · intro c hc
          rw [getLast_map_toLower] at hc
          cases hx : s5.getLast? with
          | none => rw [hx] at hc; exact absurd hc (by simp)
          | some d =>
            rw [hx, Option.map_some'] at hc
            rw [Option.some_inj] at hc
            rw [← hc, isDotDelim_toLower]
            exact hlast5 d hx

theorem toDotStr_id_of_normal {m : List Char} (h : dotNormal m) :
    Refined.toDotStr m = m := by
  obtain ⟨hup, hdel, hrun, hhead, hlast⟩ := h
  have hnws : ∀ c ∈ m, c.isWhitespace = false := by
    intro c hc
    cases hw : c.isWhitespace with
    | false => rfl
    | true =>
      have hdc : isDotDelim c = true := by rw [isDotDelim, hw]; simp
      have hce := hdel c hc hdc
      rw [hce] at hw
      exact absurd hw (by decide)
  have htrim : jsTrim m = m := jsTrim_id_of_no_ws hnws
  rw [toDotStr_unfold, Refined.dotSegments, htrim]
  by_cases hm : m = []
  · rw [if_pos hm, hm]
  · rw [if_neg hm]
    by_cases h2 : m.any isDotDelim = true
    · rw [if_pos h2]
      have hhead' : ∀ c, m.head? = some c → isDotDelim c = false := hhead
      have recon := splitRuns_reconstruct m.length (Nat.le_refl _) hdel hrun hhead hlast
      have hmapid : ((splitRuns isDotDelim m).filter (fun w => w ≠ [])).map
          (List.map Char.toLower) = (splitRuns isDotDelim m).filter (fun w => w ≠ []) := by
        refine map_id_of ?_
        intro w hw
        refine map_id_of ?_
        intro c hc
        refine toLower_eq_of_not_upper ?_
        exact hup c ((splitRuns_word_chars (List.mem_filter.mp hw).1 c hc).2)
      rw [hmapid]
      have hne : (splitRuns isDotDelim m).filter (fun w => w ≠ []) ≠ [] := by
        intro hnil
        rw [hnil] at recon
        exact hm ((show joinSep '.' ([] : List (List Char)) = [] from rfl) ▸ recon).symm
      rw [if_neg hne]
      exact recon
    · rw [if_neg h2]
      have hnodelim : ∀ c ∈ m, isDotDelim c = false := by
        intro c hc
        have := List.any_eq_false.mp (Bool.not_eq_true _ ▸ h2) c hc
        cases hx : isDotDelim c with
        | false => rfl
        | true => exact absurd hx this
      have hnodot : ∀ c ∈ m, (decide (c = '.')) = false := by
        intro c hc
        cases hx : decide (c = '.') with
        | false => rfl
        | true =>
          have hce := of_decide_eq_true hx
          have := hnodelim c hc
          rw [hce] at this
          exact absurd this (by decide)
      have hlow : m.map Char.toLower = m :=
        map_id_of (fun c hc => toLower_eq_of_not_upper (hup c hc))
      by_cases h4 : (decide (m ≠ []) && m.all (fun c => c.isUpper || c.isDigit)) = true
      · rw [if_pos h4]
        exact hlow
      · rw [if_neg h4]
        rw [acronymSplit_id_of_no_upper none hup,
          camelSplit_id_of_no_upper none hup,
          collapseRuns_id_of_none false hnodot,
          dropWhile_id_of_none hnodot,
          dropTrailingRun_id_of_last (fun c hc => hnodot c (mem_of_getLast? hc)),
          hlow]

theorem filter_dropWhile {p q : Char → Bool} (hpq : ∀ c, q c = true → p c = false) :
    ∀ {l : List Char}, (l.dropWhile q).filter p = l.filter p
  | [] => rfl
  | a :: as => by
    rw [List.dropWhile_cons]
    by_cases ha : q a = true
    · rw [if_pos ha, List.filter_cons_of_neg (by rw [hpq a ha]; simp)]
      exact filter_dropWhile hpq
    · rw [if_neg ha]

theorem filter_dropTrailingRun {p q : Char → Bool} (hpq : ∀ c, q c = true → p c = false) :
    ∀ {l : List Char}, (dropTrailingRun q l).filter p = l.filter p
  | [] => rfl
  | a :: as => by
    have ih : (dropTrailingRun q as).filter p = as.filter p := filter_dropTrailingRun hpq
    show (if dropTrailingRun q as = [] then (if q a then [] else [a])
        else a :: dropTrailingRun q as).filter p = (a :: as).filter p
    by_cases hr : dropTrailingRun q as = []
    · rw [if_pos hr]
      rw [hr] at ih
      have hasnil : as.filter p = [] := ih.symm
      by_cases ha : q a = true
      · rw [if_pos ha, List.filter_cons, hpq a ha]
        simp only [Bool.false_eq_true, if_false]
        rw [hasnil]
        rfl
      · rw [if_neg ha, List.filter_cons, List.filter_cons, hasnil]
        rfl
    · rw [if_neg hr, List.filter_cons, List.filter_cons, ih]

theorem noRunOf_dotDelim_to_dot :
    ∀ {l : List Char}, noRunOf isDotDelim l = true →
      noRunOf (fun c => c = '.') l = true
  | [], _ => rfl
  | [_], _ => rfl
  | a :: b :: bs, h => by
    rw [noRunOf]
    have hpair := noRunOf_pair h
    have hab : (decide (a = '.') && decide (b = '.')) = false := by
      cases hda : decide (a = '.') with
      | false => rw [Bool.false_and]
      | true =>
        cases hdb : decide (b = '.') with
        | false => rw [Bool.and_false]
        | true =>
          have ha := of_decide_eq_true hda
          have hb := of_decide_eq_true hdb
          rw [ha, hb] at hpair
          exact absurd hpair (by decide)
    rw [hab, Bool.not_false, Bool.true_and]
    exact noRunOf_dotDelim_to_dot (noRunOf_cons h)

theorem toCamelStr_unfold (l : List Char) :
    Refined.toCamelStr l =
      (if jsTrim l = [] then []
       else if (jsTrim l).any isCamelDelim then
         (match ((splitRuns isCamelDelim (jsTrim l)).filter (fun w => w ≠ [])).map
             (List.map Char.toLower) with
          | [] => []
          | first :: rest => first ++ (rest.map capitalizeWord).flatten)
       else if jsTrim l ≠ [] && (jsTrim l).all (fun c => c.isUpper || c.isDigit) then
         (jsTrim l).map Char.toLower
       else if pascalTest (jsTrim l) then lowerFirst (jsTrim l)
       else if camelTest (jsTrim l) then jsTrim l
       else (jsTrim l).map Char.toLower) := rfl

theorem splitRuns_of_none {p : Char → Bool} :
    ∀ {l : List Char}, l ≠ [] → (∀ c ∈ l, p c = false) → splitRuns p l = [l]
  | [], h, _ => absurd rfl h
  | [c], _, hall => by
    rcases splitRuns_cons_of_not (t := ([] : List Char))
      (hall c (List.mem_cons_self c [])) with ⟨w, ws, hr, he⟩
    rw [show splitRuns p ([] : List Char) = [[]] from rfl, List.cons.injEq] at hr
    rw [he, ← hr.1, ← hr.2]
  | c :: d :: ds, _, hall => by
    rcases splitRuns_cons_of_not (t := d :: ds)
      (hall c (List.mem_cons_self c _)) with ⟨w, ws, hr, he⟩
    have ih := splitRuns_of_none (l := d :: ds) (by simp)
      (fun x hx => hall x (List.mem_cons_of_mem c hx))
    rw [ih, List.cons.injEq] at hr
    rw [he, ← hr.1, ← hr.2]

theorem fewShot_toCamelStr_unfold (l : List Char) :
    FewShot.toCamelStr l =
      (if jsTrim l = [] then []
       else match ((if (jsTrim l).any (fun c => !FewShot.isAlnumAscii c) then
              splitRuns (fun c => !FewShot.isAlnumAscii c) (jsTrim l)
            else if (jsTrim l).any Char.isLower && (jsTrim l).any Char.isUpper then
              FewShot.camelBoundarySplit (jsTrim l)
            else [jsTrim l]).filter (fun w => w ≠ [])).map (List.map Char.toLower) with
       | [] => []
       | first :: rest => first ++ (rest.map capitalizeWord).flatten) := rfl

theorem convertCore_unfold (l : List Char) :
    Basic.convertCore l =
      (match (splitRuns (fun c => !Basic.isWordChar c) l).filter (fun w => w ≠ []) with
       | [] => []
       | first :: rest => first.map Char.toLower
           ++ (rest.map (fun w => capitalizeWord (w.map Char.toLower))).flatten) := rfl

theorem upper_digit_facts {c : Char} (h : (c.isUpper || c.isDigit) = true) :
    c.isWhitespace = false ∧ isCamelDelim c = false ∧ isDotDelim c = false ∧
    isKebabDelim c = false ∧ c.isLower = false ∧ (decide (c.toLower = '-')) = false := by
  rw [Bool.or_eq_true] at h
  have harr : ('-').toNat = 45 := by decide
  rcases h with hu | hd
  · have h1 := isUpper_iff.mp hu
    have h2 := toNat_range_of_upper_toLower hu
    refine ⟨not_ws_of_range (by omega),
      isCamelDelim_eq_false_of (by omega) (by omega) (by omega),
      isDotDelim_eq_false_of (by omega) (by omega) (by omega),
      isKebabDelim_eq_false_of (by omega) (by omega) (by omega), ?_, ?_⟩
    · cases hx : c.isLower with
      | false => rfl
      | true => exact absurd (isLower_iff.mp hx).1 (by omega)
    · refine decide_eq_false (char_ne_of_toNat_ne ?_)
      omega
  · have h1 := isDigit_iff.mp hd
    have hnu : c.isUpper = false := by
      cases hx : c.isUpper with
      | false => rfl
      | true => exact absurd (isUpper_iff.mp hx).1 (by omega)
    have hlow : c.toLower = c := toLower_eq_of_not_upper hnu
    refine ⟨not_ws_of_range (by omega),
      isCamelDelim_eq_false_of (by omega) (by omega) (by omega),
      isDotDelim_eq_false_of (by omega) (by omega) (by omega),
      isKebabDelim_eq_false_of (by omega) (by omega) (by omega), ?_, ?_⟩
    · cases hx : c.isLower with
      | false => rfl
      | true => exact absurd (isLower_iff.mp hx).1 (by omega)
    · rw [hlow]
      refine decide_eq_false (char_ne_of_toNat_ne ?_)
      omega

/-- C1 (counterexample to the claim as stated): `convertToCamelCase` of
basic_prompt.js applied to `null` returns the result `''` instead of
signalling `InvalidInputError`, and so does the few-shot `toCamelCase`. -/
theorem claim1_counterexample :
    Basic.convertToCamelCase JSVal.null = Except.ok "" ∧
    FewShot.toCamelCase JSVal.null = Except.ok "" ∧
    Basic.convertToCamelCase JSVal.null ≠ Except.error "Input must be a string" :=
  ⟨rfl, rfl, fun h => Except.noConfusion h⟩

/-- C1 (amended): for every non-string input, the refined `toCamelCase`,
the refined `toDotCase` and `toKebabCase` signal the error
"Input must be a string", while `convertToCamelCase` (basic_prompt.js) and
`toCamelCase` (few_shot_prompt.js) return an ordinary string result
instead of signalling. -/
theorem claim1_amended (v : JSVal) (h : v.isString = false) :
    Refined.toCamelCase v = Except.error "Input must be a string" ∧
    Refined.toDotCase v = Except.error "Input must be a string" ∧
    Kebab.toKebabCase v = Except.error "Input must be a string" ∧
    (∃ s, Basic.convertToCamelCase v = Except.ok s) ∧
    (∃ s, FewShot.toCamelCase v = Except.ok s) := by
  cases v with
  | str s => exact absurd h (by simp [JSVal.isString])
  | num n => exact ⟨rfl, rfl, rfl, ⟨"", rfl⟩, ⟨_, rfl⟩⟩
  | bool b => cases b <;> exact ⟨rfl, rfl, rfl, ⟨"", rfl⟩, ⟨_, rfl⟩⟩
  | null => exact ⟨rfl, rfl, rfl, ⟨"", rfl⟩, ⟨"", rfl⟩⟩
  | undef => exact ⟨rfl, rfl, rfl, ⟨"", rfl⟩, ⟨"", rfl⟩⟩
  | obj => exact ⟨rfl, rfl, rfl, ⟨"", rfl⟩, ⟨_, rfl⟩⟩
  | arr => exact ⟨rfl, rfl, rfl, ⟨"", rfl⟩, ⟨_, rfl⟩⟩

/-- C1 (witness): the amended statement applied at the concrete non-string
input `5`. -/
theorem claim1_witness :
    Kebab.toKebabCase (JSVal.num 5) = Except.error "Input must be a string" :=
  (claim1_amended (JSVal.num 5) rfl).2.2.1

/-- C2 (counterexample to the claim as stated): the refined `toCamelCase`
preserves `'userID'` unchanged (the already-camelCase branch), so it does
not return `'userId'`. -/
theorem claim2_counterexample :
    Refined.toCamelCase (JSVal.str "userID") = Except.ok "userID" ∧
    ("userID" : String) ≠ "userId" :=
  ⟨rfl, by decide⟩

/-- C2 (amended): the few-shot `toCamelCase` inserts the boundary at the
lower-to-upper transition and returns `'userId'` for `'userID'`, while the
refined `toCamelCase` preserves `'userID'` as-is. -/
theorem claim2_amended :
    FewShot.toCamelCase (JSVal.str "userID") = Except.ok "userId" ∧
    Refined.toCamelCase (JSVal.str "userID") = Except.ok "userID" :=
  ⟨rfl, rfl⟩

/-- C3 (counterexample to the claim as stated): the refined `toCamelCase` is
not idempotent: it maps `'a.b c'` to `'a.bC'`, but maps `'a.bC'` to
`'a.bc'`. -/
theorem claim3_counterexample :
    Refined.toCamelCase (JSVal.str "a.b c") = Except.ok "a.bC" ∧
    Refined.toCamelCase (JSVal.str "a.bC") = Except.ok "a.bc" ∧
    ("a.bc" : String) ≠ "a.bC" :=
  ⟨rfl, rfl, by decide⟩

/-- C3 (amended): `toKebabCase` and the refined `toDotCase` are idempotent
on every string; the camelCase conversion is excluded. -/
theorem claim3_amended (l : List Char) :
    Kebab.toKebabStr (Kebab.toKebabStr l) = Kebab.toKebabStr l ∧
    Refined.toDotStr (Refined.toDotStr l) = Refined.toDotStr l :=
  ⟨toKebabStr_id_of_normal (kebabNormal_toKebabStr l),
   toDotStr_id_of_normal (dotNormal_toDotStr l)⟩

/-- C4 (confirmed): converting the empty string or a whitespace-only string
returns the empty string, not an error, for the refined `toCamelCase`, the
refined `toDotCase` and `toKebabCase`. -/
theorem claim4_empty_whitespace :
    Refined.toCamelCase (JSVal.str "") = Except.ok "" ∧
    Refined.toCamelCase (JSVal.str "   ") = Except.ok "" ∧
    Refined.toDotCase (JSVal.str "") = Except.ok "" ∧
    Refined.toDotCase (JSVal.str "   ") = Except.ok "" ∧
    Kebab.toKebabCase (JSVal.str "") = Except.ok "" ∧
    Kebab.toKebabCase (JSVal.str "   ") = Except.ok "" :=
  ⟨rfl, rfl, rfl, rfl, rfl, rfl⟩

/-- C5 (confirmed): the refined `toDotCase` splits the acronym-to-word and
lower-to-upper boundaries of `'XMLHttpRequest'` and returns
`'xml.http.request'`. -/
theorem claim5_acronym :
    Refined.toDotCase (JSVal.str "XMLHttpRequest") = Except.ok "xml.http.request" :=
  rfl

/-- C6 (counterexample to the claim as stated): `'A1B'` consists only of
uppercase letters and digits, yet `toKebabCase` inserts a boundary between
the digit and the following uppercase letter: the result is `'a1-b'`, not
`'a1b'`. -/
theorem claim6_counterexample :
    Kebab.toKebabCase (JSVal.str "A1B") = Except.ok "a1-b" ∧
    ("a1-b" : String) ≠ "a1b" :=
  ⟨rfl, by decide⟩

/-- C6 (amended): on a nonempty input of uppercase letters and digits only,
the refined `toCamelCase` and `toDotCase` return the whole string lowercased
with no boundary; `toKebabCase` does the same provided no digit is
immediately followed by an uppercase letter (otherwise it inserts a hyphen
at that digit-to-uppercase transition). -/
theorem claim6_amended (l : List Char) (h1 : l ≠ [])
    (h2 : ∀ c ∈ l, (c.isUpper || c.isDigit) = true) :
    Refined.toCamelStr l = l.map Char.toLower ∧
    Refined.toDotStr l = l.map Char.toLower ∧
    FewShot.toCamelStr l = l.map Char.toLower ∧
    Basic.convertCore l = l.map Char.toLower ∧
    (pairOk camelBoundaryB none l = true → Kebab.toKebabStr l = l.map Char.toLower) := by
  have hnws : ∀ c ∈ l, c.isWhitespace = false :=
    fun c hc => (upper_digit_facts (h2 c hc)).1
  have htrim : jsTrim l = l := jsTrim_id_of_no_ws hnws
  have hall : l.all (fun c => c.isUpper || c.isDigit) = true :=
    List.all_eq_true.mpr h2
  have hnocam : (l.any isCamelDelim) = false :=
    List.any_eq_false.mpr (fun c hc => by
      rw [(upper_digit_facts (h2 c hc)).2.1]; simp)
  have hnodot : (l.any isDotDelim) = false :=
    List.any_eq_false.mpr (fun c hc => by
      rw [(upper_digit_facts (h2 c hc)).2.2.1]; simp)
  have hcond : (decide (l ≠ []) && l.all (fun c => c.isUpper || c.isDigit)) = true := by
    rw [decide_eq_true h1, hall]; rfl
  have halnum : ∀ c ∈ l, FewShot.isAlnumAscii c = true := by
    intro c hc
    have := h2 c hc
    rw [FewShot.isAlnumAscii]
    rw [Bool.or_eq_true] at this ⊢
    rcases this with hu | hd
    · exact Or.inl (by rw [Bool.or_eq_true]; exact Or.inl hu)
    · exact Or.inr hd
  have hword : ∀ c ∈ l, Basic.isWordChar c = true := by
    intro c hc
    have := h2 c hc
    rw [Basic.isWordChar, Char.isAlpha]
    rw [Bool.or_eq_true] at this ⊢
    rcases this with hu | hd
    · exact Or.inl (by rw [Bool.or_eq_true]; exact Or.inl hu)
    · exact Or.inr hd
  have hnolow : ∀ c ∈ l, c.isLower = false :=
    fun c hc => (upper_digit_facts (h2 c hc)).2.2.2.2.1
  refine ⟨?_, ?_, ?_, ?_, ?_⟩
  · rw [toCamelStr_unfold, htrim, if_neg h1, if_neg (by rw [hnocam]; simp), if_pos hcond]
  · rw [toDotStr_unfold, htrim, if_neg h1, if_neg (by rw [hnodot]; simp), if_pos hcond]
  · rw [fewShot_toCamelStr_unfold, htrim, if_neg h1]
    have hany1 : l.any (fun c => !FewShot.isAlnumAscii c) = false :=
      List.any_eq_false.mpr (fun c hc => by rw [halnum c hc]; simp)
    have hany2 : l.any Char.isLower = false :=
      List.any_eq_false.mpr (fun c hc => by rw [hnolow c hc]; simp)
    rw [if_neg (by rw [hany1]; simp), if_neg (by rw [hany2, Bool.false_and]; simp)]
    rw [List.filter_cons_of_pos (p := fun w => decide (w ≠ [])) (by simpa using h1)]
    show l.map Char.toLower ++ (([] : List (List Char)).map capitalizeWord).flatten
        = l.map Char.toLower
    rw [List.map_nil, List.flatten_nil, List.append_nil]
  · rw [convertCore_unfold,
      splitRuns_of_none h1 (fun c hc => by rw [hword c hc]; rfl)]
    rw [List.filter_cons_of_pos (p := fun w => decide (w ≠ [])) (by simpa using h1)]
    show l.map Char.toLower ++ (([] : List (List Char)).map
        (fun w => capitalizeWord (w.map Char.toLower))).flatten = l.map Char.toLower
    rw [List.map_nil, List.flatten_nil, List.append_nil]
  · intro hpair
    rw [Kebab.toKebabStr, if_neg h1]
    have hnokeb : ∀ c ∈ l, isKebabDelim c = false :=
      fun c hc => (upper_digit_facts (h2 c hc)).2.2.2.1
    have hmaphyph : ∀ x ∈ l.map Char.toLower, (decide (x = '-')) = false := by
      intro x hx
      rcases List.mem_map.mp hx with ⟨d, hd, hdx⟩
      exact hdx ▸ (upper_digit_facts (h2 d hd)).2.2.2.2.2
    rw [acronymSplit_id_of_no_lower none hnolow,
      camelSplit_id_of_pairOk hpair,
      collapseRuns_id_of_none false hnokeb,
      collapseRuns_id_of_none false hmaphyph,
      dropOneLeading_id (fun c hc h5 =>
        absurd (hmaphyph c (mem_of_head? hc)) (by rw [decide_eq_true h5]; simp)),
      dropOneTrailing_id (fun c hc h5 =>
        absurd (hmaphyph c (mem_of_getLast? hc)) (by rw [decide_eq_true h5]; simp))]

/-- C6 (witness): the amended statement applied at the concrete input
`'ID42'`, whose only digit-adjacency is uppercase-then-digit, giving
`'id42'` for all three conversions. -/
theorem claim6_witness :
    Refined.toCamelStr "ID42".data = "id42".data ∧
    Refined.toDotStr "ID42".data = "id42".data ∧
    FewShot.toCamelStr "ID42".data = "id42".data ∧
    Basic.convertCore "ID42".data = "id42".data ∧
    Kebab.toKebabStr "ID42".data = "id42".data := by
  have h := claim6_amended "ID42".data (by decide) (by decide)
  refine ⟨?_, ?_, ?_, ?_, ?_⟩
  · rw [h.1]; decide
  · rw [h.2.1]; decide
  · rw [h.2.2.1]; decide
  · rw [h.2.2.2.1]; decide
  · rw [h.2.2.2.2 (by decide)]; decide

/-- C7 (confirmed): runs of delimiters collapse to a single boundary and
leading or trailing delimiters produce no empty segments. -/
theorem claim7_delimiters :
    Kebab.toKebabCase (JSVal.str "--multiple__delimiters  test--")
        = Except.ok "multiple-delimiters-test" ∧
    Refined.toCamelCase (JSVal.str "_leading_underscore") = Except.ok "leadingUnderscore" :=
  ⟨rfl, rfl⟩

/-- C8 (counterexample to the claim as stated): for the input `'a!b_c'` the
segment sequence of the refined `toDotCase` is `['a!b', 'c']`; its
concatenation `'a!bc'` is not the alphanumeric content `'abc'` of the
input, because the non-alphanumeric, non-delimiter character `'!'` stays
inside a segment. -/
theorem claim8_counterexample :
    (Refined.dotSegments "a!b_c".data).flatten = "a!bc".data ∧
    ("a!b_c".data.filter (fun c => c.isAlpha || c.isDigit)).map Char.toLower
      = "abc".data ∧
    "a!bc".data ≠ "abc".data :=
  ⟨rfl, rfl, by decide⟩

/-- C8 (amended): for every string input, the segment sequence built by the
delimiter-splitting path of the refined `toDotCase` has no empty segment,
and the concatenation of the segments equals the input's non-delimiter
characters, lowercased, in their left-to-right order. -/
theorem claim8_amended (l : List Char) :
    (∀ w ∈ Refined.dotSegments l, w ≠ []) ∧
    (Refined.dotSegments l).flatten
      = (l.filter (fun c => !isDotDelim c)).map Char.toLower := by
  constructor
  · intro w hw
    rw [Refined.dotSegments] at hw
    rcases List.mem_map.mp hw with ⟨w', hw', hmapw⟩
    rcases List.mem_filter.mp hw' with ⟨_, hw'ne⟩
    rw [← hmapw]
    simpa using of_decide_eq_true hw'ne
  · rw [Refined.dotSegments, ← List.map_flatten, flatten_filter_splitRuns]
    have hws : ∀ c : Char, c.isWhitespace = true → (!isDotDelim c) = false := by
      intro c hc
      rw [isDotDelim, hc]
      simp
    rw [jsTrim, filter_dropTrailingRun hws, filter_dropWhile hws]

/-- C9 (confirmed): the two alternate camelCase implementations never signal
an error for any input value; `convertToCamelCase` returns `''` for every
non-string input, and the few-shot `toCamelCase` returns `''` for null and
undefined and coerces other values with `String()`, so the number `123`
yields `'123'`. -/
theorem claim9_no_error :
    (∀ v : JSVal, (∃ s, Basic.convertToCamelCase v = Except.ok s) ∧
      (∃ s, FewShot.toCamelCase v = Except.ok s)) ∧
    (∀ v : JSVal, v.isString = false → Basic.convertToCamelCase v = Except.ok "") ∧
    FewShot.toCamelCase JSVal.null = Except.ok "" ∧
    FewShot.toCamelCase JSVal.undef = Except.ok "" ∧
    FewShot.toCamelCase (JSVal.num 123) = Except.ok "123" := by
  refine ⟨?_, ?_, rfl, rfl, rfl⟩
  · intro v
    cases v with
    | str s => exact ⟨⟨_, rfl⟩, ⟨_, rfl⟩⟩
    | num n => exact ⟨⟨_, rfl⟩, ⟨_, rfl⟩⟩
    | bool b => cases b <;> exact ⟨⟨_, rfl⟩, ⟨_, rfl⟩⟩
    | null => exact ⟨⟨_, rfl⟩, ⟨_, rfl⟩⟩
    | undef => exact ⟨⟨_, rfl⟩, ⟨_, rfl⟩⟩
    | obj => exact ⟨⟨_, rfl⟩, ⟨_, rfl⟩⟩
    | arr => exact ⟨⟨_, rfl⟩, ⟨_, rfl⟩⟩
  · intro v h
    cases v with
    | str s => exact absurd h (by simp [JSVal.isString])
    | num n => rfl
    | bool b => rfl
    | null => rfl
    | undef => rfl
    | obj => rfl
    | arr => rfl

/-- C9 (witness): the statement applied at the concrete non-string input
`7`. -/
theorem claim9_witness : Basic.convertToCamelCase (JSVal.num 7) = Except.ok "" :=
  claim9_no_error.2.1 (JSVal.num 7) rfl

/-- C10 (confirmed): for every string input, the output of `toKebabCase`
contains no uppercase letter, does not begin or end with a hyphen and has
no two adjacent hyphens; the output of the refined `toDotCase` contains no
uppercase letter, does not begin or end with a dot and has no two adjacent
dots. -/
theorem claim10_output_normal (l : List Char) :
    ((∀ c ∈ Kebab.toKebabStr l, c.isUpper = false) ∧
      (Kebab.toKebabStr l).head? ≠ some '-' ∧
      (Kebab.toKebabStr l).getLast? ≠ some '-' ∧
      noRunOf (fun c => c = '-') (Kebab.toKebabStr l) = true) ∧
    ((∀ c ∈ Refined.toDotStr l, c.isUpper = false) ∧
      (Refined.toDotStr l).head? ≠ some '.' ∧
      (Refined.toDotStr l).getLast? ≠ some '.' ∧
      noRunOf (fun c => c = '.') (Refined.toDotStr l) = true) := by
  obtain ⟨kup, _, krun, khead, klast⟩ := kebabNormal_toKebabStr l
  obtain ⟨dup, _, drun, dhead, dlast⟩ := dotNormal_toDotStr l
  refine ⟨⟨kup, ?_, ?_, krun⟩, ⟨dup, ?_, ?_, noRunOf_dotDelim_to_dot drun⟩⟩
  · intro h
    exact khead '-' h rfl
  · intro h
    exact klast '-' h rfl
  · intro h
    exact absurd (dhead '.' h) (by simp [isDotDelim])
  · intro h
    exact absurd (dlast '.' h) (by simp [isDotDelim])

/-- C3 (witness): the amended idempotence statement applied at a concrete
mixed-case input with delimiters. -/
theorem claim3_witness :
    Kebab.toKebabStr (Kebab.toKebabStr "_Already-Kebab_".data)
        = Kebab.toKebabStr "_Already-Kebab_".data ∧
    Refined.toDotStr (Refined.toDotStr "_Already-Kebab_".data)
        = Refined.toDotStr "_Already-Kebab_".data :=
  claim3_amended "_Already-Kebab_".data

/-- C8 (witness): the amended segment invariant applied at a concrete
input. -/
theorem claim8_witness :
    (Refined.dotSegments "Hello world_X".data).flatten
      = ("Hello world_X".data.filter (fun c => !isDotDelim c)).map Char.toLower :=
  (claim8_amended "Hello world_X".data).2

/-- C10 (witness): the output normal form applied at a concrete input. -/
theorem claim10_witness :
    (Kebab.toKebabStr "--A_b--".data).head? ≠ some '-' ∧
    noRunOf (fun c => c = '.') (Refined.toDotStr "--A_b--".data) = true :=
  ⟨(claim10_output_normal "--A_b--".data).1.2.1,
   (claim10_output_normal "--A_b--".data).2.2.2.2⟩
